import Mathlib

/-!
Verification of the core of the dts-up declaration-file bundler.

This file shallowly embeds the data model and algorithms of the bundler
(`src/ast/symbol.rs`, `src/utils.rs`, `src/ast/module.rs`,
`src/ast/module_analyzer.rs`, `src/graph/graph.rs`, `src/graph/module_graph.rs`,
`src/graph/async_worker.rs`) and proves or refutes the stated properties of its
specification.

Conventions used throughout:
* SWC `Mark`s are `Nat`s.  `JsWord` / `SmolStr` strings are Lean `String`s
  (for the path-resolution claims, where suffix structure matters, `List Char`).
* Rust `HashMap`s are association lists (`List (k × v)`, `List.lookup`);
  an insertion that overwrites prepends, so `List.lookup` (first match) sees the
  most recent insertion.  `HashSet`s of marks are `Finset Nat`.
* Rust iteration order over a `HashMap`/`HashSet` is unspecified; the embedding
  fixes it to the list order of the embedding.  None of the proved or refuted
  properties below depend on that order.
* A Rust `panic!` / `.unwrap()` failure is `Except.error`.
-/

namespace DtsUp

/-! ## Symbol table (`src/ast/symbol.rs`)

`SymbolBox` holds the fresh-mark allocator and the union-find over marks
(`ena::unify::InPlaceUnificationTable`).  The embedding keeps the partition as a
fully-compressed representative function `reprOf`.  `ena` picks the surviving
root of a union by rank, our embedding always keeps the root of the first
argument; every property stated in this file depends only on the induced
partition (whether two marks share a root), which is identical.  Mark 0 is
consumed at initialization ("Mark(0) is a special mark in SWC"), so freshly
allocated marks start at 1. -/

structure SymbolBox where
  next_mark : Nat
  reprOf : Nat → Nat

/-- Initial symbol box: mark 0 is already consumed, nothing is unified. -/
def SymbolBox.init : SymbolBox := { next_mark := 1, reprOf := id }

instance : Inhabited SymbolBox := ⟨SymbolBox.init⟩

/-- `SymbolBox::new_mark`: returns the fresh mark and the updated allocator. -/
def SymbolBox.new_mark (s : SymbolBox) : Nat × SymbolBox :=
  (s.next_mark, { s with next_mark := s.next_mark + 1 })

/-- `SymbolBox::find_root`. -/
def SymbolBox.find_root (s : SymbolBox) (a : Nat) : Nat := s.reprOf a

/-- `SymbolBox::union`: merges the classes of `a` and `b` (root of the class of
`a` survives; see the module comment on root choice). -/
def SymbolBox.union (s : SymbolBox) (a b : Nat) : SymbolBox :=
  { s with reprOf := fun x => if s.reprOf x = s.reprOf b then s.reprOf a else s.reprOf x }

/-- `SymbolBox::unioned`. -/
def SymbolBox.unioned (s : SymbolBox) (a b : Nat) : Bool :=
  s.find_root a = s.find_root b

theorem SymbolBox.find_root_union (s : SymbolBox) (a b x : Nat) :
    (s.union a b).find_root x =
      if s.reprOf x = s.reprOf b then s.reprOf a else s.reprOf x := rfl

/-- After `union a b`, `a` and `b` share a root. -/
theorem SymbolBox.union_same_root (s : SymbolBox) (a b : Nat) :
    (s.union a b).find_root a = (s.union a b).find_root b := by
  simp only [find_root_union]
  by_cases h : s.reprOf a = s.reprOf b <;> simp [h]

/-- Unions never separate marks: an existing shared root survives any union. -/
theorem SymbolBox.union_preserves (s : SymbolBox) (a b x y : Nat)
    (h : s.find_root x = s.find_root y) :
    (s.union a b).find_root x = (s.union a b).find_root y := by
  simp only [find_root_union]
  simp only [find_root] at h
  rw [h]

/-! ## Path resolution (`src/utils.rs`, `resolve_id`)

Strings are embedded as `List Char` so that the suffix structure `ends_with`
inspects is visible to proofs.  `resolve_id` is a pure function of its input:
the embedding has no effects, mirroring the absence of filesystem probing in
the source. -/

/-- Rust `str::ends_with`. -/
def ends_with (s suf : List Char) : Bool := decide (suf <:+ s)

/-- `resolve_id` from `src/utils.rs`. -/
def resolve_id (id : List Char) : List Char :=
  if ends_with id (String.toList ".d.ts") then id
  else if ends_with id (String.toList ".d") then id ++ String.toList ".ts"
  else id ++ String.toList ".d.ts"

theorem ends_with_iff (s suf : List Char) : ends_with s suf = true ↔ suf <:+ s := by
  simp [ends_with]

/-- C10: `resolve_id` keeps a `.d.ts` input unchanged, completes a `.d` input
with `.ts`, appends `.d.ts` otherwise, and in all cases the result ends in
`.d.ts`. -/
theorem resolve_id_spec (id : List Char) :
    (String.toList ".d.ts" <:+ id → resolve_id id = id) ∧
    (¬ String.toList ".d.ts" <:+ id → String.toList ".d" <:+ id →
      resolve_id id = id ++ String.toList ".ts") ∧
    (¬ String.toList ".d.ts" <:+ id → ¬ String.toList ".d" <:+ id →
      resolve_id id = id ++ String.toList ".d.ts") ∧
    String.toList ".d.ts" <:+ resolve_id id := by
  simp only [resolve_id, ends_with, decide_eq_true_eq]
  refine ⟨fun h => if_pos h, fun h1 h2 => by rw [if_neg h1, if_pos h2],
    fun h1 h2 => by rw [if_neg h1, if_neg h2], ?_⟩
  by_cases h1 : String.toList ".d.ts" <:+ id
  · rw [if_pos h1]; exact h1
  · by_cases h2 : String.toList ".d" <:+ id
    · rw [if_neg h1, if_pos h2]
      obtain ⟨t, rfl⟩ := h2
      rw [List.append_assoc]
      exact List.suffix_append t _
    · rw [if_neg h1, if_neg h2]
      exact List.suffix_append id _

/-- Witness for `resolve_id_spec` at the concrete inputs `/a/x.d.ts`, `/a/x.d`
and `/a/x`. -/
theorem resolve_id_spec_witness :
    resolve_id (String.toList "/a/x.d.ts") = String.toList "/a/x.d.ts" ∧
    resolve_id (String.toList "/a/x.d") = String.toList "/a/x.d.ts" ∧
    resolve_id (String.toList "/a/x") = String.toList "/a/x.d.ts" := by
  refine ⟨(resolve_id_spec _).1 (by decide), ?_, ?_⟩
  · have h := (resolve_id_spec (String.toList "/a/x.d")).2.1 (by decide) (by decide)
    rw [h]; decide
  · have h := (resolve_id_spec (String.toList "/a/x")).2.2.1 (by decide) (by decide)
    rw [h]; decide

/-! ## Data model (`src/ast/module_analyzer.rs`, `src/ast/statement.rs`,
`src/ast/module.rs`, `src/graph/module_graph.rs`)

AST node payloads (`node : ModuleItem`) carried by statements are irrelevant to
every claim below and are dropped from the embedding; all other fields are kept.
-/

/-- `ImportIdent` from `src/ast/module.rs`. -/
inductive ImportIdent
  | name (n : String)
  | namespaced
deriving DecidableEq, Repr

/-- `ExportOriginalIdent` from `src/ast/module_analyzer.rs`. -/
inductive ExportOriginalIdent
  | name (n : String) (src : Option String)
  | namespaced
  | all
deriving DecidableEq, Repr

/-- `ModuleImport` from `src/ast/module_analyzer.rs`. -/
structure ModuleImport where
  index : Nat
  mark : Nat
  local_name : String
  original_ident : ImportIdent
  src : String
deriving DecidableEq, Repr

/-- `ModuleExportName` from `src/ast/module_analyzer.rs`. -/
structure ModuleExportName where
  exported_name : String
  original_ident : ExportOriginalIdent
  mark : Nat
  src : Option String
  index : Option Nat
deriving DecidableEq, Repr

/-- `ModuleExportNamespace` from `src/ast/module_analyzer.rs`. -/
structure ModuleExportNamespace where
  index : Nat
  exported_name : String
  original_ident : ExportOriginalIdent
  mark : Nat
  src : String
deriving DecidableEq, Repr

/-- `ModuleExportAll` from `src/ast/module_analyzer.rs`. -/
structure ModuleExportAll where
  index : Nat
  src : String
deriving DecidableEq, Repr

/-- `ModuleExport` from `src/ast/module_analyzer.rs` (`local_exports` entries). -/
inductive ModuleExport
  | name (e : ModuleExportName)
  | namespaced (e : ModuleExportNamespace)
  | all (e : ModuleExportAll)
deriving DecidableEq, Repr

/-- `Exports` from `src/ast/module.rs` (resolved `exports` map values). -/
inductive Exports
  | name (e : ModuleExportName)
  | namespaced (e : ModuleExportNamespace)
deriving DecidableEq, Repr

/-- Mark carried by a resolved export; both variants carry one and
`Graph::link_modules` unions with it in both cases. -/
def Exports.mark : Exports → Nat
  | .name e => e.mark
  | .namespaced e => e.mark

/-- `DeclStatement` from `src/ast/statement.rs` (without the AST payload). -/
structure DeclStatement where
  included : Bool
  reads : List Nat
  is_export_decl : Bool
  mark : Nat
deriving DecidableEq, Repr

/-- `Statement` from `src/ast/statement.rs` (without the AST payloads). -/
inductive Statement
  | declStatement (s : DeclStatement)
  | importStatement
  | exportStatementNonDecl
deriving DecidableEq, Repr

/-- `Module` from `src/ast/module.rs`.  `imports` holds the values of the
`local_name → ModuleImport` map in iteration order; `exports` and
`src_to_resolved_id` are association lists. -/
structure Module where
  id : String
  is_entry : Bool
  statements : List Statement
  imports : List ModuleImport
  local_exports : List ModuleExport
  exports : List (String × Exports)
  src_to_resolved_id : List (String × String)
deriving DecidableEq, Repr

/-- Edge weights of `ModuleGraph` (`src/graph/module_graph.rs`). -/
inductive EdgeKind
  | importK
  | exportAllK
  | exportNamedK
  | exportNamespaceK
deriving DecidableEq, Repr

/-- One edge of the petgraph `Graph<ModuleId, ModuleEdge>`: endpoints are node
indices, `index` is the source-order index carried by every `ModuleEdge`
variant. -/
structure ModuleEdge where
  source : Nat
  target : Nat
  kind : EdgeKind
  index : Nat
deriving DecidableEq, Repr

/-- Driver-side graph state used by the link passes (`Graph` in
`src/graph/graph.rs` together with its `ModuleGraph`): node weights (module
ids, position = petgraph node index), edges, the stored sort result, and the
`id → Module` map. -/
structure GraphState where
  entry_module_index : Nat
  nodes : List String
  edges : List ModuleEdge
  sorted_modules : List Nat
  id_to_module : List (String × Module)
deriving DecidableEq, Repr

/-! ## Mark unification (`Graph::link_modules`, `src/graph/graph.rs` 194-299)

The pass walks modules in reverse sorted order and unions marks; failed
`unwrap`s and the missing-export `panic!` are `Except.error`. -/

/-- Name under which `link_modules` looks up a re-exported `Name` export in the
target module (`target_module.exports.get(&dep_export_name.original_ident)`). -/
def ExportOriginalIdent.lookupName : ExportOriginalIdent → Option String
  | .name n _ => some n
  | _ => none

/-- Processing of one `ImportBinding` inside the `imports.values()` loop of
`link_modules`. -/
def link_import_step (g : GraphState) (m : Module) (imp : ModuleImport)
    (s : SymbolBox) : Except String SymbolBox :=
  match List.lookup imp.src m.src_to_resolved_id with
  | none => .error "unwrap failed: src_to_resolved_id"
  | some tid =>
    match List.lookup tid g.id_to_module with
    | none => .error "unwrap failed: id_to_module"
    | some t =>
      match imp.original_ident with
      | .name n =>
        match List.lookup n t.exports with
        | some e => .ok (s.union imp.mark e.mark)
        | none =>
          .error ("linking failed, as symbol " ++ n ++ " imported from " ++ t.id
            ++ " is not exist")
      | .namespaced => .ok s

/-- The `imports.values()` loop of `link_modules`. -/
def link_module_imports (g : GraphState) (m : Module) :
    List ModuleImport → SymbolBox → Except String SymbolBox
  | [], s => .ok s
  | imp :: rest, s =>
    match link_import_step g m imp s with
    | .error e => .error e
    | .ok s1 => link_module_imports g m rest s1

/-- Processing of one resolved export inside the `exports.values()` loop of
`link_modules` (re-export alias chains). -/
def link_export_step (g : GraphState) (m : Module) (ex : Exports)
    (s : SymbolBox) : Except String SymbolBox :=
  match ex with
  | .namespaced _ => .ok s
  | .name e =>
    match e.src with
    | none => .ok s
    | some src =>
      match List.lookup src m.src_to_resolved_id with
      | none => .ok s
      | some tid =>
        match List.lookup tid g.id_to_module with
        | none => .error "unwrap failed: id_to_module"
        | some t =>
          match e.original_ident.lookupName with
          | none => .ok s
          | some n =>
            match List.lookup n t.exports with
            | some te => .ok (s.union e.mark te.mark)
            | none => .ok s

/-- The `exports.values()` loop of `link_modules`. -/
def link_module_exports (g : GraphState) (m : Module) :
    List Exports → SymbolBox → Except String SymbolBox
  | [], s => .ok s
  | ex :: rest, s =>
    match link_export_step g m ex s with
    | .error e => .error e
    | .ok s1 => link_module_exports g m rest s1

/-- Processing of one module of the reverse-sorted iteration of
`link_modules`. -/
def link_one_module (g : GraphState) (mi : Nat) (s : SymbolBox) :
    Except String SymbolBox :=
  match g.nodes.get? mi with
  | none => .error "invalid module index"
  | some id =>
    match List.lookup id g.id_to_module with
    | none => .error "unwrap failed: id_to_module"
    | some m =>
      match link_module_imports g m m.imports s with
      | .error e => .error e
      | .ok s1 => link_module_exports g m (m.exports.map Prod.snd) s1

def link_modules_aux (g : GraphState) : List Nat → SymbolBox → Except String SymbolBox
  | [], s => .ok s
  | mi :: rest, s =>
    match link_one_module g mi s with
    | .error e => .error e
    | .ok s1 => link_modules_aux g rest s1

/-- `Graph::link_modules`: walk modules in reverse sorted order, unify import
marks and re-export marks with the marks of the target exports. -/
def link_modules (g : GraphState) (s : SymbolBox) : Except String SymbolBox :=
  link_modules_aux g g.sorted_modules.reverse s

/-! Preservation: every piece of `link_modules` only performs unions, so a pair
of marks that already shares a root keeps sharing one. -/

theorem link_import_step_preserves {g m imp s s'} (x y : Nat)
    (hok : link_import_step g m imp s = .ok s')
    (h : s.find_root x = s.find_root y) : s'.find_root x = s'.find_root y := by
  unfold link_import_step at hok
  repeat' split at hok
  all_goals simp_all
  all_goals subst hok
  all_goals first
    | exact h
    | exact SymbolBox.union_preserves _ _ _ _ _ h

theorem link_module_imports_preserves {g m} (l : List ModuleImport) {s s'}
    (x y : Nat) (hok : link_module_imports g m l s = .ok s')
    (h : s.find_root x = s.find_root y) : s'.find_root x = s'.find_root y := by
  induction l generalizing s with
  | nil => simp [link_module_imports] at hok; subst hok; exact h
  | cons imp rest ih =>
    unfold link_module_imports at hok
    split at hok
    · simp at hok
    · next s1 hstep =>
      exact ih hok (link_import_step_preserves x y hstep h)

theorem link_export_step_preserves {g m ex s s'} (x y : Nat)
    (hok : link_export_step g m ex s = .ok s')
    (h : s.find_root x = s.find_root y) : s'.find_root x = s'.find_root y := by
  unfold link_export_step at hok
  repeat' split at hok
  all_goals simp_all
  all_goals subst hok
  all_goals first
    | exact h
    | exact SymbolBox.union_preserves _ _ _ _ _ h

theorem link_module_exports_preserves {g m} (l : List Exports) {s s'}
    (x y : Nat) (hok : link_module_exports g m l s = .ok s')
    (h : s.find_root x = s.find_root y) : s'.find_root x = s'.find_root y := by
  induction l generalizing s with
  | nil => simp [link_module_exports] at hok; subst hok; exact h
  | cons ex rest ih =>
    unfold link_module_exports at hok
    split at hok
    · simp at hok
    · next s1 hstep =>
      exact ih hok (link_export_step_preserves x y hstep h)

theorem link_one_module_preserves {g mi s s'} (x y : Nat)
    (hok : link_one_module g mi s = .ok s')
    (h : s.find_root x = s.find_root y) : s'.find_root x = s'.find_root y := by
  unfold link_one_module at hok
  repeat' split at hok
  all_goals simp_all
  case _ s1 himp =>
    exact link_module_exports_preserves _ x y hok
      (link_module_imports_preserves _ x y himp h)

theorem link_modules_aux_preserves {g} (l : List Nat) {s s'} (x y : Nat)
    (hok : link_modules_aux g l s = .ok s')
    (h : s.find_root x = s.find_root y) : s'.find_root x = s'.find_root y := by
  induction l generalizing s with
  | nil => simp [link_modules_aux] at hok; subst hok; exact h
  | cons mi rest ih =>
    unfold link_modules_aux at hok
    split at hok
    · simp at hok
    · next s1 hstep =>
      exact ih hok (link_one_module_preserves x y hstep h)

/-- Running the per-import loop on a list containing `imp` (whose target export
exists) equates the binding mark with the export mark. -/
theorem link_module_imports_unifies {g m} (l : List ModuleImport) {s s'}
    (hok : link_module_imports g m l s = .ok s')
    {imp : ModuleImport} (himp : imp ∈ l) {n tid t e}
    (hn : imp.original_ident = .name n)
    (htid : List.lookup imp.src m.src_to_resolved_id = some tid)
    (ht : List.lookup tid g.id_to_module = some t)
    (he : List.lookup n t.exports = some e) :
    s'.find_root imp.mark = s'.find_root e.mark := by
  induction l generalizing s with
  | nil => cases himp
  | cons hd rest ih =>
    unfold link_module_imports at hok
    split at hok
    · simp at hok
    · next s1 hstep =>
      rcases List.mem_cons.mp himp with rfl | hmem
      · have hs1 : s1 = s.union imp.mark e.mark := by
          simp only [link_import_step, htid, ht, hn, he, Except.ok.injEq] at hstep
          exact hstep.symm
        subst hs1
        exact link_module_imports_preserves rest imp.mark e.mark hok
          (SymbolBox.union_same_root s imp.mark e.mark)
      · exact ih hok hmem

/-- Decomposition of the module iteration. -/
theorem link_modules_aux_append {g} (l1 l2 : List Nat) (s : SymbolBox) :
    link_modules_aux g (l1 ++ l2) s =
      match link_modules_aux g l1 s with
      | .error e => .error e
      | .ok s1 => link_modules_aux g l2 s1 := by
  induction l1 generalizing s with
  | nil => simp [link_modules_aux]
  | cons mi rest ih =>
    simp only [List.cons_append, link_modules_aux]
    cases link_one_module g mi s with
    | error e => rfl
    | ok s1 => exact ih s1

/-- C1: after `Graph::link_modules` completes, every `Name` import binding
whose resolved target module exports the imported name shares its union-find
root with that export's mark. -/
theorem link_modules_unifies_import_marks
    {g : GraphState} {s s' : SymbolBox}
    (hok : link_modules g s = .ok s')
    {mi : Nat} (hmi : mi ∈ g.sorted_modules)
    {id : String} {m : Module}
    (hid : g.nodes.get? mi = some id)
    (hm : List.lookup id g.id_to_module = some m)
    {imp : ModuleImport} (himp : imp ∈ m.imports)
    {n : String} (hn : imp.original_ident = .name n)
    {tid : String} (htid : List.lookup imp.src m.src_to_resolved_id = some tid)
    {t : Module} (ht : List.lookup tid g.id_to_module = some t)
    {e : Exports} (he : List.lookup n t.exports = some e) :
    s'.find_root imp.mark = s'.find_root e.mark := by
  have hmi' : mi ∈ g.sorted_modules.reverse := List.mem_reverse.mpr hmi
  obtain ⟨l1, l2, hsplit⟩ := List.append_of_mem hmi'
  unfold link_modules at hok
  rw [hsplit] at hok
  rw [link_modules_aux_append] at hok
  split at hok
  · simp at hok
  · next sa ha =>
    rw [show (mi :: l2 : List Nat) = [mi] ++ l2 from rfl,
      link_modules_aux_append] at hok
    split at hok
    · simp at hok
    · next sb hb =>
      have hone : link_one_module g mi sa = .ok sb := by
        simp only [link_modules_aux] at hb
        cases hone' : link_one_module g mi sa with
        | error e => rw [hone'] at hb; simp at hb
        | ok s1 => rw [hone'] at hb; simp at hb; rw [hb]
      simp only [link_one_module, hid, hm] at hone
      split at hone
      · simp at hone
      · next s1 himps =>
        have hroot : s1.find_root imp.mark = s1.find_root e.mark :=
          link_module_imports_unifies _ himps himp hn htid ht he
        exact link_modules_aux_preserves l2 imp.mark e.mark hok
          (link_module_exports_preserves _ imp.mark e.mark hone hroot)

/-! Concrete two-module instance for the C1 witness: `index.d.ts` imports `A`
from `./a`, `a.d.ts` exports `A` with mark 2; the import binding has mark 1. -/

def c1ExportA : ModuleExportName :=
  { exported_name := "A", original_ident := .name "A" none, mark := 2,
    src := none, index := none }

def c1EntryModule : Module :=
  { id := "index.d.ts", is_entry := true, statements := [],
    imports := [{ index := 0, mark := 1, local_name := "A",
                  original_ident := .name "A", src := "./a" }],
    local_exports := [], exports := [],
    src_to_resolved_id := [("./a", "a.d.ts")] }

def c1AModule : Module :=
  { id := "a.d.ts", is_entry := false, statements := [],
    imports := [], local_exports := [],
    exports := [("A", .name c1ExportA)], src_to_resolved_id := [] }

def c1Graph : GraphState :=
  { entry_module_index := 0, nodes := ["index.d.ts", "a.d.ts"],
    edges := [{ source := 0, target := 1, kind := .importK, index := 0 }],
    sorted_modules := [1, 0],
    id_to_module := [("index.d.ts", c1EntryModule), ("a.d.ts", c1AModule)] }

/-- Symbol box produced by linking the concrete two-module instance. -/
def c1Linked : SymbolBox :=
  match link_modules c1Graph SymbolBox.init with
  | .ok s => s
  | .error _ => SymbolBox.init

/-- Witness for `link_modules_unifies_import_marks`: on the concrete
two-module instance the import-binding mark 1 and the export mark 2 end up
with the same union-find root. -/
theorem link_modules_unifies_import_marks_witness :
    c1Linked.find_root 1 = c1Linked.find_root 2 :=
  @link_modules_unifies_import_marks c1Graph SymbolBox.init c1Linked rfl
    0 (by decide) "index.d.ts" c1EntryModule rfl rfl
    { index := 0, mark := 1, local_name := "A",
      original_ident := .name "A", src := "./a" }
    (by decide) "A" rfl "a.d.ts" rfl c1AModule rfl (.name c1ExportA) rfl

/-! ## `export *` flattening (`Graph::link_export_all`, `src/graph/graph.rs`
135-187)

For every module (in sorted order) the pass copies the module's resolved
exports into every module that `export *`s from it; a name already present in
the destination map is the `duplicated key detected` panic, embedded as
`Except.error` with the formatted panic message. -/

/-- Looking a module up through its petgraph index
(`get_module_by_module_index`). -/
def GraphState.module_at (st : GraphState) (mi : Nat) : Option Module :=
  match st.nodes.get? mi with
  | none => none
  | some id => List.lookup id st.id_to_module

/-- In-place mutation of the module stored under `key` in `id_to_module`. -/
def update_module (l : List (String × Module)) (key : String) (m : Module) :
    List (String × Module) :=
  l.map (fun p => if p.1 = key then (key, m) else p)

/-- The inner `module_exports.into_iter().for_each` of `link_export_all`:
copy each entry into the re-exporting module's `exports`, panicking on a
duplicated key. -/
def copy_exports_into (dep : Module) :
    List (String × Exports) → Except String Module
  | [] => .ok dep
  | (local_name, ex) :: rest =>
    match List.lookup local_name dep.exports with
    | none =>
      copy_exports_into { dep with exports := (local_name, ex) :: dep.exports } rest
    | some _ => .error ("[Graph] duplicated key detected: " ++ local_name)

/-- Collection of `(source module id, edge weight)` for the incoming edges of a
module (`source_module_ids` in `link_export_all`); an out-of-range node index
is a petgraph indexing panic. -/
def collect_incoming_aux (st : GraphState) :
    List ModuleEdge → Except String (List (String × EdgeKind))
  | [] => .ok []
  | e :: rest =>
    match st.nodes.get? e.source with
    | none => .error "invalid node index"
    | some src_id =>
      match collect_incoming_aux st rest with
      | .error msg => .error msg
      | .ok ps => .ok ((src_id, e.kind) :: ps)

def collect_incoming (st : GraphState) (mi : Nat) :
    Except String (List (String × EdgeKind)) :=
  collect_incoming_aux st (st.edges.filter (fun e => e.target = mi))

/-- The `source_module_ids.into_iter().for_each` loop: for each incoming edge,
re-read the current module's exports, fetch the source (re-exporting) module,
and on an `ExportAll` edge copy the exports across. -/
def link_export_all_pairs (st : GraphState) (mi : Nat) :
    List (String × EdgeKind) → Except String GraphState
  | [] => .ok st
  | (module_id, kind) :: rest =>
    match st.module_at mi with
    | none => .error "unwrap failed: id_to_module"
    | some cur =>
      match List.lookup module_id st.id_to_module with
      | none => .error "unwrap failed: id_to_module"
      | some dep =>
        match kind with
        | .exportAllK =>
          match copy_exports_into dep cur.exports with
          | .error msg => .error msg
          | .ok dep2 =>
            link_export_all_pairs
              { st with id_to_module := update_module st.id_to_module module_id dep2 }
              mi rest
        | _ => link_export_all_pairs st mi rest

def link_export_all_module (st : GraphState) (mi : Nat) :
    Except String GraphState :=
  match collect_incoming st mi with
  | .error msg => .error msg
  | .ok pairs => link_export_all_pairs st mi pairs

def link_export_all_aux (st : GraphState) : List Nat → Except String GraphState
  | [] => .ok st
  | mi :: rest =>
    match link_export_all_module st mi with
    | .error msg => .error msg
    | .ok st1 => link_export_all_aux st1 rest

/-- `Graph::link_export_all`: walk modules in sorted order and flatten
`export *` edges. -/
def link_export_all (st : GraphState) : Except String GraphState :=
  link_export_all_aux st st.sorted_modules

/-! Facts about `link_export_all`: the pass only ever inserts vacant keys, so
the per-module `exports` maps grow along a successful run; a key that is
already occupied when a copy reaches it is the `duplicated key detected`
panic. -/

/-- Resolved-exports maps ordered by inclusion (lookups are preserved). -/
def exports_submap (a b : List (String × Exports)) : Prop :=
  ∀ k v, List.lookup k a = some v → List.lookup k b = some v

/-- A module after zero or more vacant insertions into its `exports`. -/
def Module.le (m m' : Module) : Prop :=
  m'.id = m.id ∧ m'.is_entry = m.is_entry ∧ m'.statements = m.statements ∧
  m'.imports = m.imports ∧ m'.local_exports = m.local_exports ∧
  m'.src_to_resolved_id = m.src_to_resolved_id ∧
  exports_submap m.exports m'.exports

theorem Module.le_refl (m : Module) : Module.le m m :=
  ⟨rfl, rfl, rfl, rfl, rfl, rfl, fun _ _ h => h⟩

theorem Module.le_trans {a b c : Module} (h1 : Module.le a b)
    (h2 : Module.le b c) : Module.le a c := by
  obtain ⟨e1, e2, e3, e4, e5, e6, s1⟩ := h1
  obtain ⟨f1, f2, f3, f4, f5, f6, s2⟩ := h2
  exact ⟨f1.trans e1, f2.trans e2, f3.trans e3, f4.trans e4, f5.trans e5,
    f6.trans e6, fun k v h => s2 k v (s1 k v h)⟩

/-- Module maps ordered pointwise by `Module.le`. -/
def module_map_le (a b : List (String × Module)) : Prop :=
  ∀ k m, List.lookup k a = some m →
    ∃ m', List.lookup k b = some m' ∧ Module.le m m'

/-- Graph states ordered by `export *` flattening progress: everything but the
per-module `exports` maps is frozen. -/
def GraphState.le (st st' : GraphState) : Prop :=
  st'.entry_module_index = st.entry_module_index ∧ st'.nodes = st.nodes ∧
  st'.edges = st.edges ∧ st'.sorted_modules = st.sorted_modules ∧
  module_map_le st.id_to_module st'.id_to_module

theorem GraphState.le_refl_st (st : GraphState) : GraphState.le st st :=
  ⟨rfl, rfl, rfl, rfl, fun _ m h => ⟨m, h, Module.le_refl m⟩⟩

theorem GraphState.le_trans_st {a b c : GraphState} (h1 : GraphState.le a b)
    (h2 : GraphState.le b c) : GraphState.le a c := by
  obtain ⟨e1, e2, e3, e4, s1⟩ := h1
  obtain ⟨f1, f2, f3, f4, s2⟩ := h2
  refine ⟨f1.trans e1, f2.trans e2, f3.trans e3, f4.trans e4, fun k m h => ?_⟩
  obtain ⟨m1, hm1, hle1⟩ := s1 k m h
  obtain ⟨m2, hm2, hle2⟩ := s2 k m1 hm1
  exact ⟨m2, hm2, Module.le_trans hle1 hle2⟩

theorem lookup_cons_self {β : Type} (a : String) (b : β) (l : List (String × β)) :
    List.lookup a ((a, b) :: l) = some b := by
  simp [List.lookup]

theorem lookup_cons_ne {β : Type} (k a : String) (b : β) (l : List (String × β))
    (h : k ≠ a) : List.lookup k ((a, b) :: l) = List.lookup k l := by
  have hb : (k == a) = false := beq_eq_false_iff_ne.mpr h
  simp [List.lookup, hb]

theorem lookup_update_module (l : List (String × Module)) (key : String)
    (m' : Module) (k : String) :
    List.lookup k (update_module l key m') =
      if k = key then (List.lookup key l).map (fun _ => m')
      else List.lookup k l := by
  induction l with
  | nil => simp [update_module]
  | cons p rest ih =>
    obtain ⟨a, b⟩ := p
    simp only [update_module, List.map_cons] at ih ⊢
    by_cases hak : a = key
    · subst hak
      rw [if_pos rfl]
      by_cases hk : k = a
      · subst hk
        rw [if_pos rfl, lookup_cons_self, lookup_cons_self]
        rfl
      · rw [if_neg hk, lookup_cons_ne _ _ _ _ hk, lookup_cons_ne _ _ _ _ hk,
          ih, if_neg hk]
    · rw [if_neg hak]
      have hka : key ≠ a := fun h => hak h.symm
      by_cases hk : k = a
      · subst hk
        rw [if_neg hak, lookup_cons_self, lookup_cons_self]
      · rw [lookup_cons_ne _ _ _ _ hk, lookup_cons_ne _ _ _ _ hk,
          lookup_cons_ne _ _ _ _ hka, ih]

theorem copy_exports_into_le (entries : List (String × Exports)) :
    ∀ dep dep', copy_exports_into dep entries = .ok dep' → Module.le dep dep' := by
  induction entries with
  | nil =>
    intro dep dep' h
    simp only [copy_exports_into, Except.ok.injEq] at h
    exact h ▸ Module.le_refl dep
  | cons p rest ih =>
    intro dep dep' h
    obtain ⟨n, ex⟩ := p
    simp only [copy_exports_into] at h
    split at h
    · next hvac =>
      refine Module.le_trans ?_ (ih _ _ h)
      refine ⟨rfl, rfl, rfl, rfl, rfl, rfl, fun k v hk => ?_⟩
      have hkn : k ≠ n := fun hkn => by rw [hkn, hvac] at hk; cases hk
      rw [lookup_cons_ne _ _ _ _ hkn]
      exact hk
    · cases h

theorem copy_exports_into_inserts (entries : List (String × Exports)) :
    ∀ dep dep', copy_exports_into dep entries = .ok dep' →
      ∀ k v, List.lookup k entries = some v →
        ∃ w, List.lookup k dep'.exports = some w := by
  induction entries with
  | nil => intro dep dep' _ k v hk; cases hk
  | cons p rest ih =>
    intro dep dep' h k v hk
    obtain ⟨n, ex⟩ := p
    simp only [copy_exports_into] at h
    split at h
    · next hvac =>
      by_cases hkn : k = n
      · subst hkn
        have hmem : List.lookup k ((k, ex) :: dep.exports) = some ex :=
          lookup_cons_self _ _ _
        obtain ⟨_, _, _, _, _, _, hsub⟩ := copy_exports_into_le rest _ _ h
        exact ⟨ex, hsub k ex hmem⟩
      · have hk' : List.lookup k rest = some v := by
          rwa [lookup_cons_ne _ _ _ _ hkn] at hk
        exact ih _ _ h k v hk'
    · cases h

theorem copy_exports_into_dup (entries : List (String × Exports)) :
    ∀ dep, (∃ k, (∃ v, List.lookup k entries = some v) ∧
        (∃ w, List.lookup k dep.exports = some w)) →
      ∃ msg, copy_exports_into dep entries = .error msg := by
  induction entries with
  | nil => rintro dep ⟨k, ⟨v, hv⟩, _⟩; cases hv
  | cons p rest ih =>
    rintro dep ⟨k, ⟨v, hv⟩, w, hw⟩
    obtain ⟨n, ex⟩ := p
    simp only [copy_exports_into]
    cases hvac : List.lookup n dep.exports with
    | some _ => exact ⟨_, rfl⟩
    | none =>
      have hkn : k ≠ n := fun hkn => by rw [hkn, hvac] at hw; cases hw
      refine ih _ ⟨k, ⟨v, ?_⟩, ⟨w, ?_⟩⟩
      · rwa [lookup_cons_ne _ _ _ _ hkn] at hv
      · rw [lookup_cons_ne _ _ _ _ hkn]
        exact hw

/-- The situation `link_export_all` panics on when it reaches module `mi`:
some module (id `rid`) `export *`s from `mi`, and both already map the
name `n`. -/
def DupSetup (st : GraphState) (mi : Nat) (rid n : String) : Prop :=
  (∃ e ∈ st.edges, e.target = mi ∧ e.kind = .exportAllK ∧
    st.nodes.get? e.source = some rid) ∧
  (∃ dep, List.lookup rid st.id_to_module = some dep ∧
    ∃ w, List.lookup n dep.exports = some w) ∧
  (∃ cur, st.module_at mi = some cur ∧
    ∃ v, List.lookup n cur.exports = some v)

/-- The situation in which reaching module `mi` copies name `n` into the
module with id `rid`. -/
def CopySetup (st : GraphState) (mi : Nat) (rid n : String) : Prop :=
  (∃ e ∈ st.edges, e.target = mi ∧ e.kind = .exportAllK ∧
    st.nodes.get? e.source = some rid) ∧
  (∃ cur, st.module_at mi = some cur ∧
    ∃ v, List.lookup n cur.exports = some v)

theorem GraphState.le.module_at {st st' : GraphState} (hle : GraphState.le st st')
    {mi : Nat} {m : Module} (h : st.module_at mi = some m) :
    ∃ m', st'.module_at mi = some m' ∧ Module.le m m' := by
  obtain ⟨_, hn, _, _, hmap⟩ := hle
  simp only [GraphState.module_at] at h ⊢
  rw [hn]
  cases hid : st.nodes.get? mi with
  | none => rw [hid] at h; cases h
  | some id => rw [hid] at h; exact hmap id m h

theorem CopySetup.mono_copy {st st' : GraphState} {mi : Nat} {rid n : String}
    (hle : GraphState.le st st') (h : CopySetup st mi rid n) :
    CopySetup st' mi rid n := by
  obtain ⟨⟨e, he, ht, hk, hs⟩, cur, hcur, v, hv⟩ := h
  obtain ⟨cur', hcur', hcle⟩ := hle.module_at hcur
  obtain ⟨he', hn', hedges, _, _⟩ := hle
  exact ⟨⟨e, by rw [hedges]; exact he, ht, hk, by rw [hn']; exact hs⟩,
    cur', hcur', v, hcle.2.2.2.2.2.2 n v hv⟩

theorem DupSetup.mono_dup {st st' : GraphState} {mi : Nat} {rid n : String}
    (hle : GraphState.le st st') (h : DupSetup st mi rid n) :
    DupSetup st' mi rid n := by
  obtain ⟨⟨e, he, ht, hk, hs⟩, ⟨dep, hdep, w, hw⟩, cur, hcur, v, hv⟩ := h
  obtain ⟨cur', hcur', hcle⟩ := hle.module_at hcur
  obtain ⟨he', hn', hedges, _, hmap⟩ := hle
  obtain ⟨dep', hdep', hdle⟩ := hmap rid dep hdep
  exact ⟨⟨e, by rw [hedges]; exact he, ht, hk, by rw [hn']; exact hs⟩,
    ⟨dep', hdep', w, hdle.2.2.2.2.2.2 n w hw⟩,
    cur', hcur', v, hcle.2.2.2.2.2.2 n v hv⟩

theorem link_export_all_pairs_le (ps : List (String × EdgeKind)) (mi : Nat) :
    ∀ st st', link_export_all_pairs st mi ps = .ok st' → GraphState.le st st' := by
  induction ps with
  | nil =>
    intro st st' h
    simp only [link_export_all_pairs, Except.ok.injEq] at h
    exact h ▸ GraphState.le_refl_st st
  | cons p rest ih =>
    intro st st' h
    obtain ⟨module_id, kind⟩ := p
    simp only [link_export_all_pairs] at h
    split at h
    · cases h
    · next cur hcur =>
      split at h
      · cases h
      · next dep hdep =>
        split at h
        · split at h
          · cases h
          · next dep2 hcopy =>
            refine GraphState.le_trans_st ?_ (ih _ _ h)
            refine ⟨rfl, rfl, rfl, rfl, fun k m hk => ?_⟩
            rw [lookup_update_module]
            by_cases hkey : k = module_id
            · subst hkey
              rw [hk] at hdep
              cases hdep
              rw [if_pos rfl, hk]
              exact ⟨dep2, rfl, copy_exports_into_le _ _ _ hcopy⟩
            · rw [if_neg hkey]
              exact ⟨m, hk, Module.le_refl m⟩
        · exact ih _ _ h

theorem link_export_all_pairs_dup (ps : List (String × EdgeKind)) (mi : Nat)
    (rid n : String) :
    ∀ st, (rid, EdgeKind.exportAllK) ∈ ps →
      (∃ dep, List.lookup rid st.id_to_module = some dep ∧
        ∃ w, List.lookup n dep.exports = some w) →
      (∃ cur, st.module_at mi = some cur ∧
        ∃ v, List.lookup n cur.exports = some v) →
      ∃ msg, link_export_all_pairs st mi ps = .error msg := by
  induction ps with
  | nil => intro st h; cases h
  | cons p rest ih =>
    rintro st hmem ⟨dep, hdep, w, hw⟩ ⟨cur, hcur, v, hv⟩
    obtain ⟨module_id, kind⟩ := p
    cases hdep0 : List.lookup module_id st.id_to_module with
    | none =>
      exact ⟨"unwrap failed: id_to_module",
        by simp only [link_export_all_pairs, hcur, hdep0]⟩
    | some dep0 =>
      rcases List.mem_cons.mp hmem with heq | hmem'
      · injection heq with h1 h2
        subst h1; subst h2
        rw [hdep0] at hdep
        cases hdep
        obtain ⟨msg, hmsg⟩ :=
          copy_exports_into_dup cur.exports dep ⟨n, ⟨v, hv⟩, w, hw⟩
        exact ⟨msg, by simp only [link_export_all_pairs, hcur, hdep0, hmsg]⟩
      · cases kind with
        | exportAllK =>
          cases hcopy : copy_exports_into dep0 cur.exports with
          | error msg =>
            exact ⟨msg, by simp only [link_export_all_pairs, hcur, hdep0, hcopy]⟩
          | ok dep2 =>
            have hle : GraphState.le st
                { st with id_to_module := update_module st.id_to_module module_id dep2 } := by
              refine ⟨rfl, rfl, rfl, rfl, fun k m hk => ?_⟩
              simp only []
              rw [lookup_update_module]
              by_cases hkey : k = module_id
              · subst hkey
                rw [hk] at hdep0
                cases hdep0
                rw [if_pos rfl, hk]
                exact ⟨dep2, rfl, copy_exports_into_le _ _ _ hcopy⟩
              · rw [if_neg hkey]
                exact ⟨m, hk, Module.le_refl m⟩
            obtain ⟨dep', hdep', hdle⟩ := hle.2.2.2.2 rid dep hdep
            obtain ⟨cur', hcur', hcle⟩ := hle.module_at hcur
            obtain ⟨msg, hmsg⟩ := ih _ hmem' ⟨dep', hdep', w, hdle.2.2.2.2.2.2 n w hw⟩
              ⟨cur', hcur', v, hcle.2.2.2.2.2.2 n v hv⟩
            exact ⟨msg, by
              simp only [link_export_all_pairs, hcur, hdep0, hcopy]
              exact hmsg⟩
        | importK =>
          obtain ⟨msg, hmsg⟩ := ih st hmem' ⟨dep, hdep, w, hw⟩ ⟨cur, hcur, v, hv⟩
          exact ⟨msg, by
            simp only [link_export_all_pairs, hcur, hdep0]
            exact hmsg⟩
        | exportNamedK =>
          obtain ⟨msg, hmsg⟩ := ih st hmem' ⟨dep, hdep, w, hw⟩ ⟨cur, hcur, v, hv⟩
          exact ⟨msg, by
            simp only [link_export_all_pairs, hcur, hdep0]
            exact hmsg⟩
        | exportNamespaceK =>
          obtain ⟨msg, hmsg⟩ := ih st hmem' ⟨dep, hdep, w, hw⟩ ⟨cur, hcur, v, hv⟩
          exact ⟨msg, by
            simp only [link_export_all_pairs, hcur, hdep0]
            exact hmsg⟩

theorem collect_incoming_aux_mem (st : GraphState) (l : List ModuleEdge) :
    ∀ ps, collect_incoming_aux st l = .ok ps →
      ∀ e ∈ l, ∀ rid, st.nodes.get? e.source = some rid → (rid, e.kind) ∈ ps := by
  induction l with
  | nil => intro ps _ e he; cases he
  | cons e0 rest ih =>
    intro ps hok e he rid hrid
    simp only [collect_incoming_aux] at hok
    split at hok
    · cases hok
    · next src_id hsrc =>
      split at hok
      · cases hok
      · next ps0 hps0 =>
        cases hok
        rcases List.mem_cons.mp he with rfl | hmem
        · rw [hrid] at hsrc
          cases hsrc
          exact List.mem_cons_self _ _
        · exact List.mem_cons_of_mem _ (ih ps0 hps0 e hmem rid hrid)

theorem link_export_all_module_le {st st' : GraphState} {mi : Nat}
    (h : link_export_all_module st mi = .ok st') : GraphState.le st st' := by
  unfold link_export_all_module at h
  split at h
  · cases h
  · next ps _ => exact link_export_all_pairs_le ps mi st st' h

theorem link_export_all_module_dup {st : GraphState} {mi : Nat} {rid n : String}
    (h : DupSetup st mi rid n) :
    ∃ msg, link_export_all_module st mi = .error msg := by
  obtain ⟨⟨e, he, ht, hk, hs⟩, hdep, hcur⟩ := h
  cases hc : collect_incoming st mi with
  | error msg => exact ⟨msg, by simp only [link_export_all_module, hc]⟩
  | ok ps =>
    have hfe : e ∈ st.edges.filter (fun e => e.target = mi) := by
      rw [List.mem_filter]
      exact ⟨he, by simp [ht]⟩
    have hmem : (rid, e.kind) ∈ ps :=
      collect_incoming_aux_mem st _ ps hc e hfe rid hs
    rw [hk] at hmem
    obtain ⟨msg, hmsg⟩ := link_export_all_pairs_dup ps mi rid n st hmem hdep hcur
    exact ⟨msg, by simp only [link_export_all_module, hc]; exact hmsg⟩

theorem link_export_all_aux_le (L : List Nat) :
    ∀ st st', link_export_all_aux st L = .ok st' → GraphState.le st st' := by
  induction L with
  | nil =>
    intro st st' h
    simp only [link_export_all_aux, Except.ok.injEq] at h
    exact h ▸ GraphState.le_refl_st st
  | cons mi rest ih =>
    intro st st' h
    simp only [link_export_all_aux] at h
    split at h
    · cases h
    · next st1 h1 =>
      exact GraphState.le_trans_st (link_export_all_module_le h1) (ih st1 st' h)

theorem link_export_all_aux_dup (L : List Nat) {mi : Nat} {rid n : String} :
    ∀ st, mi ∈ L → DupSetup st mi rid n →
      ∃ msg, link_export_all_aux st L = .error msg := by
  induction L with
  | nil => intro st h; cases h
  | cons h0 rest ih =>
    intro st hmem hdup
    rcases List.mem_cons.mp hmem with rfl | hmem'
    · obtain ⟨msg, hmsg⟩ := link_export_all_module_dup hdup
      exact ⟨msg, by simp only [link_export_all_aux, hmsg]⟩
    · cases hmod : link_export_all_module st h0 with
      | error msg => exact ⟨msg, by simp only [link_export_all_aux, hmod]⟩
      | ok st1 =>
        obtain ⟨msg, hmsg⟩ :=
          ih st1 hmem' (hdup.mono_dup (link_export_all_module_le hmod))
        exact ⟨msg, by simp only [link_export_all_aux, hmod]; exact hmsg⟩

theorem update_after_copy_le (st : GraphState) {module_id : String}
    {dep0 dep2 : Module} {entries : List (String × Exports)}
    (hdep0 : List.lookup module_id st.id_to_module = some dep0)
    (hcopy : copy_exports_into dep0 entries = .ok dep2) :
    GraphState.le st
      { st with id_to_module := update_module st.id_to_module module_id dep2 } := by
  refine ⟨rfl, rfl, rfl, rfl, fun k m hk => ?_⟩
  simp only []
  rw [lookup_update_module]
  by_cases hkey : k = module_id
  · subst hkey
    rw [hk] at hdep0
    cases hdep0
    rw [if_pos rfl, hk]
    exact ⟨dep2, rfl, copy_exports_into_le _ _ _ hcopy⟩
  · rw [if_neg hkey]
    exact ⟨m, hk, Module.le_refl m⟩

theorem link_export_all_pairs_inserts (ps : List (String × EdgeKind)) (mi : Nat)
    (rid n : String) :
    ∀ st st', link_export_all_pairs st mi ps = .ok st' →
      (rid, EdgeKind.exportAllK) ∈ ps →
      (∃ cur, st.module_at mi = some cur ∧
        ∃ v, List.lookup n cur.exports = some v) →
      ∃ dep', List.lookup rid st'.id_to_module = some dep' ∧
        ∃ w, List.lookup n dep'.exports = some w := by
  induction ps with
  | nil => intro st st' _ h; cases h
  | cons p rest ih =>
    rintro st st' hok hmem ⟨cur, hcur, v, hv⟩
    obtain ⟨module_id, kind⟩ := p
    cases hdep0 : List.lookup module_id st.id_to_module with
    | none => simp [link_export_all_pairs, hcur, hdep0] at hok
    | some dep0 =>
      cases kind with
      | exportAllK =>
        cases hcopy : copy_exports_into dep0 cur.exports with
        | error msg => simp [link_export_all_pairs, hcur, hdep0, hcopy] at hok
        | ok dep2 =>
          simp only [link_export_all_pairs, hcur, hdep0, hcopy] at hok
          rcases List.mem_cons.mp hmem with heq | hmem'
          · injection heq with h1 h2
            subst h1
            obtain ⟨w, hw⟩ :=
              copy_exports_into_inserts cur.exports dep0 dep2 hcopy n v hv
            have hlookup : List.lookup rid
                (update_module st.id_to_module rid dep2) = some dep2 := by
              rw [lookup_update_module, if_pos rfl, hdep0]
              rfl
            obtain ⟨dep3, hdep3, hdle⟩ :=
              (link_export_all_pairs_le rest mi _ _ hok).2.2.2.2 rid dep2 hlookup
            exact ⟨dep3, hdep3, w, hdle.2.2.2.2.2.2 n w hw⟩
          · have hle1 := update_after_copy_le st hdep0 hcopy
            obtain ⟨cur', hcur', hcle⟩ := hle1.module_at hcur
            exact ih _ st' hok hmem'
              ⟨cur', hcur', v, hcle.2.2.2.2.2.2 n v hv⟩
      | importK =>
        simp only [link_export_all_pairs, hcur, hdep0] at hok
        rcases List.mem_cons.mp hmem with heq | hmem'
        · injection heq with h1 h2; cases h2
        · exact ih st st' hok hmem' ⟨cur, hcur, v, hv⟩
      | exportNamedK =>
        simp only [link_export_all_pairs, hcur, hdep0] at hok
        rcases List.mem_cons.mp hmem with heq | hmem'
        · injection heq with h1 h2; cases h2
        · exact ih st st' hok hmem' ⟨cur, hcur, v, hv⟩
      | exportNamespaceK =>
        simp only [link_export_all_pairs, hcur, hdep0] at hok
        rcases List.mem_cons.mp hmem with heq | hmem'
        · injection heq with h1 h2; cases h2
        · exact ih st st' hok hmem' ⟨cur, hcur, v, hv⟩

theorem link_export_all_module_inserts {st st1 : GraphState} {mi : Nat}
    {rid n : String} (hok : link_export_all_module st mi = .ok st1)
    (h : CopySetup st mi rid n) :
    ∃ dep', List.lookup rid st1.id_to_module = some dep' ∧
      ∃ w, List.lookup n dep'.exports = some w := by
  obtain ⟨⟨e, he, ht, hk, hs⟩, hcur⟩ := h
  unfold link_export_all_module at hok
  split at hok
  · cases hok
  · next ps hps =>
    have hfe : e ∈ st.edges.filter (fun e => e.target = mi) := by
      rw [List.mem_filter]
      exact ⟨he, by simp [ht]⟩
    have hmem : (rid, e.kind) ∈ ps :=
      collect_incoming_aux_mem st _ ps hps e hfe rid hs
    rw [hk] at hmem
    exact link_export_all_pairs_inserts ps mi rid n st st1 hok hmem hcur

theorem link_export_all_aux_inserts (L : List Nat) {mi : Nat} {rid n : String} :
    ∀ st st', link_export_all_aux st L = .ok st' → mi ∈ L →
      CopySetup st mi rid n →
      ∃ dep', List.lookup rid st'.id_to_module = some dep' ∧
        ∃ w, List.lookup n dep'.exports = some w := by
  induction L with
  | nil => intro st st' _ h; cases h
  | cons h0 rest ih =>
    intro st st' hok hmem hcopy
    simp only [link_export_all_aux] at hok
    split at hok
    · cases hok
    · next st1 h1 =>
      rcases List.mem_cons.mp hmem with rfl | hmem'
      · obtain ⟨dep', hdep', w, hw⟩ := link_export_all_module_inserts h1 hcopy
        obtain ⟨dep'', hdep'', hdle⟩ :=
          (link_export_all_aux_le rest st1 st' hok).2.2.2.2 rid dep' hdep'
        exact ⟨dep'', hdep'', w, hdle.2.2.2.2.2.2 n w hw⟩
      · exact ih st1 st' hok hmem' (hcopy.mono_copy (link_export_all_module_le h1))

theorem link_export_all_aux_append (l1 l2 : List Nat) :
    ∀ st, link_export_all_aux st (l1 ++ l2) =
      match link_export_all_aux st l1 with
      | .error msg => .error msg
      | .ok st1 => link_export_all_aux st1 l2 := by
  induction l1 with
  | nil => intro st; simp [link_export_all_aux]
  | cons mi rest ih =>
    intro st
    simp only [List.cons_append, link_export_all_aux]
    cases link_export_all_module st mi with
    | error msg => rfl
    | ok st1 => exact ih st1

/-! Concrete instances for the `export *` flattening claims. -/

/-- Export entry `T` of `a.d.ts` (mark 4). -/
def c4ExportT : ModuleExportName :=
  { exported_name := "T", original_ident := .name "T" none, mark := 4,
    src := none, index := none }

def c4EntryModule : Module :=
  { id := "index.d.ts", is_entry := true, statements := [],
    imports := [], local_exports := [.all { index := 0, src := "./a" }],
    exports := [], src_to_resolved_id := [("./a", "a.d.ts")] }

def c4AModule : Module :=
  { id := "a.d.ts", is_entry := false, statements := [],
    imports := [], local_exports := [],
    exports := [("T", .name c4ExportT)], src_to_resolved_id := [] }

/-- Graph for `index.d.ts: export * from "./a"` with `a.d.ts` exporting `T`. -/
def c4Graph : GraphState :=
  { entry_module_index := 0, nodes := ["index.d.ts", "a.d.ts"],
    edges := [{ source := 0, target := 1, kind := .exportAllK, index := 0 }],
    sorted_modules := [1, 0],
    id_to_module := [("index.d.ts", c4EntryModule), ("a.d.ts", c4AModule)] }

/-- The graph after one successful `link_export_all` pass. -/
def c4Once : GraphState :=
  match link_export_all c4Graph with
  | .ok st => st
  | .error _ => c4Graph

/-- Entry module of `c4Once`: it has received the copied export `T`. -/
def c4EntryAfter : Module :=
  { c4EntryModule with exports := [("T", Exports.name c4ExportT)] }

/-- C4 counterexample: `export *` flattening is not idempotent.  On the graph
`index.d.ts: export * from "./a"`, `a.d.ts: export type T`, the first
`link_export_all` succeeds (copying `T` into the entry), and the second run
panics with `duplicated key detected: T` instead of terminating normally with
unchanged exports. -/
theorem link_export_all_not_idempotent :
    link_export_all c4Graph = .ok c4Once ∧
    link_export_all c4Once = .error "[Graph] duplicated key detected: T" :=
  ⟨rfl, rfl⟩

/-- C4 (amended): a second run of `link_export_all` panics on a duplicated key
whenever the first successful run left behind an `export *` edge whose source
and target both map some name (which is exactly what every performed copy
creates); flattening is idempotent only when it copies nothing. -/
theorem link_export_all_second_run_panics
    {st st' : GraphState} (hfirst : link_export_all st = .ok st')
    {mi : Nat} {rid n : String}
    (hmi : mi ∈ st'.sorted_modules) (hdup : DupSetup st' mi rid n) :
    ∃ msg, link_export_all st' = .error msg :=
  link_export_all_aux_dup st'.sorted_modules st' hmi hdup

/-- Witness for `link_export_all_second_run_panics` on the concrete
`c4Graph` / `c4Once` instance. -/
theorem link_export_all_second_run_panics_witness :
    ∃ msg, link_export_all c4Once = .error msg :=
  @link_export_all_second_run_panics c4Graph c4Once rfl
    1 "index.d.ts" "T" (by decide)
    ⟨⟨{ source := 0, target := 1, kind := .exportAllK, index := 0 },
        by decide, rfl, rfl, rfl⟩,
      ⟨c4EntryAfter, rfl, Exports.name c4ExportT, rfl⟩,
      ⟨c4AModule, rfl, Exports.name c4ExportT, rfl⟩⟩

/-- Export entry `T` of `a.d.ts` (mark 4) and of `b.d.ts` (mark 5). -/
def c5ExportTA : ModuleExportName :=
  { exported_name := "T", original_ident := .name "T" none, mark := 4,
    src := none, index := none }

def c5ExportTB : ModuleExportName :=
  { exported_name := "T", original_ident := .name "T" none, mark := 5,
    src := none, index := none }

def c5EntryModule : Module :=
  { id := "index.d.ts", is_entry := true, statements := [],
    imports := [],
    local_exports := [.all { index := 0, src := "./a" },
                      .all { index := 1, src := "./b" }],
    exports := [],
    src_to_resolved_id := [("./a", "a.d.ts"), ("./b", "b.d.ts")] }

def c5AModule : Module :=
  { id := "a.d.ts", is_entry := false, statements := [],
    imports := [], local_exports := [],
    exports := [("T", .name c5ExportTA)], src_to_resolved_id := [] }

def c5BModule : Module :=
  { id := "b.d.ts", is_entry := false, statements := [],
    imports := [], local_exports := [],
    exports := [("T", .name c5ExportTB)], src_to_resolved_id := [] }

/-- Scenario 4 of the specification: `index.d.ts: export * from "./a";
export * from "./b"`, both sources exporting `T`. -/
def c5Graph : GraphState :=
  { entry_module_index := 0, nodes := ["index.d.ts", "a.d.ts", "b.d.ts"],
    edges := [{ source := 0, target := 1, kind := .exportAllK, index := 0 },
              { source := 0, target := 2, kind := .exportAllK, index := 1 }],
    sorted_modules := [2, 1, 0],
    id_to_module := [("index.d.ts", c5EntryModule), ("a.d.ts", c5AModule),
                     ("b.d.ts", c5BModule)] }

/-- C5 counterexample: on the duplicate-`export *` conflict the run does fail
fatally, but the panic message names only the conflicting name `T`; it contains
neither contributing source module id (`a.d.ts`, `b.d.ts`). -/
theorem link_export_all_duplicate_report_lacks_sources :
    link_export_all c5Graph = .error "[Graph] duplicated key detected: T" ∧
    ¬ String.toList "a.d.ts" <:+:
        String.toList "[Graph] duplicated key detected: T" ∧
    ¬ String.toList "b.d.ts" <:+:
        String.toList "[Graph] duplicated key detected: T" :=
  ⟨rfl, by decide, by decide⟩

/-- C5 (amended): when two distinct `export *` source modules contribute the
same name to one re-exporting module, `link_export_all` fails fatally (no
output is produced); the report carries the conflicting name only, not the
contributing source module ids. -/
theorem link_export_all_duplicate_across_sources
    {st : GraphState} {A B : List Nat} {m1i : Nat}
    (hsort : st.sorted_modules = A ++ m1i :: B)
    {m0i : Nat} (hm0 : m0i ∈ A) {rid n : String}
    (h0 : CopySetup st m0i rid n)
    (h1e : ∃ e ∈ st.edges, e.target = m1i ∧ e.kind = .exportAllK ∧
      st.nodes.get? e.source = some rid)
    (h1c : ∃ cur, st.module_at m1i = some cur ∧
      ∃ v, List.lookup n cur.exports = some v) :
    ∃ msg, link_export_all st = .error msg := by
  unfold link_export_all
  rw [hsort, link_export_all_aux_append]
  cases hA : link_export_all_aux st A with
  | error msg => exact ⟨msg, rfl⟩
  | ok stA =>
    have hle := link_export_all_aux_le A st stA hA
    obtain ⟨dep', hdep', w, hw⟩ :=
      link_export_all_aux_inserts A st stA hA hm0 h0
    obtain ⟨e, he, ht, hk, hs⟩ := h1e
    obtain ⟨cur, hcur, v, hv⟩ := h1c
    obtain ⟨cur', hcur', hcle⟩ := hle.module_at hcur
    have hdupA : DupSetup stA m1i rid n := by
      refine ⟨⟨e, ?_, ht, hk, ?_⟩, ⟨dep', hdep', w, hw⟩,
        cur', hcur', v, hcle.2.2.2.2.2.2 n v hv⟩
      · rw [hle.2.2.1]; exact he
      · rw [hle.2.1]; exact hs
    obtain ⟨msg, hmsg⟩ :=
      link_export_all_aux_dup (m1i :: B) stA (List.mem_cons_self _ _) hdupA
    exact ⟨msg, hmsg⟩

/-- Witness for `link_export_all_duplicate_across_sources` on the concrete
scenario-4 graph. -/
theorem link_export_all_duplicate_across_sources_witness :
    ∃ msg, link_export_all c5Graph = .error msg :=
  @link_export_all_duplicate_across_sources c5Graph [2] [0] 1 rfl
    2 (by decide) "index.d.ts" "T"
    ⟨⟨{ source := 0, target := 2, kind := .exportAllK, index := 1 },
        by decide, rfl, rfl, rfl⟩,
      ⟨c5BModule, rfl, Exports.name c5ExportTB, rfl⟩⟩
    ⟨{ source := 0, target := 1, kind := .exportAllK, index := 0 },
      by decide, rfl, rfl, rfl⟩
    ⟨c5AModule, rfl, Exports.name c5ExportTA, rfl⟩

/-! ## Module sorting (`ModuleGraph::sort_modules`, `src/graph/module_graph.rs`
110-157)

The iterative DFS from the entry: pop a node; if already visited, emit it into
the output; otherwise re-push it, mark it visited, and push the unvisited
targets of its outgoing edges in ascending `edge.index` order (so the largest
index is on top of the stack).  `level_edges.sort_by_key(|e| e.1)` is a stable
sort by index, embedded as a stable insertion sort.  Stacks are lists with the
head as the top.  Termination needs petgraph's guarantee that stored node
indices are in range, carried as explicit hypotheses. -/

/-- Stable insertion of an `(target, index)` pair into an index-sorted list. -/
def insert_by_index (x : Nat × Nat) : List (Nat × Nat) → List (Nat × Nat)
  | [] => [x]
  | y :: rest =>
    if x.2 ≤ y.2 then x :: y :: rest else y :: insert_by_index x rest

/-- Stable sort of `(target, index)` pairs by ascending index
(`Vec::sort_by_key`). -/
def sort_by_index : List (Nat × Nat) → List (Nat × Nat)
  | [] => []
  | x :: rest => insert_by_index x (sort_by_index rest)

theorem mem_insert_by_index {x y : Nat × Nat} :
    ∀ l, (y ∈ insert_by_index x l ↔ y = x ∨ y ∈ l) := by
  intro l
  induction l with
  | nil => simp [insert_by_index]
  | cons z rest ih =>
    simp only [insert_by_index]
    split
    · simp [List.mem_cons]
    · simp only [List.mem_cons, ih]
      tauto

theorem mem_sort_by_index {y : Nat × Nat} :
    ∀ l, (y ∈ sort_by_index l ↔ y ∈ l) := by
  intro l
  induction l with
  | nil => simp [sort_by_index]
  | cons z rest ih =>
    simp only [sort_by_index, mem_insert_by_index, List.mem_cons, ih]

/-- The `level_edges` of one DFS step: unvisited targets of the outgoing edges
of `n`, with their indices, sorted ascending by index. -/
def level_edges (g : GraphState) (visited : Finset Nat) (n : Nat) :
    List (Nat × Nat) :=
  sort_by_index
    ((g.edges.filter (fun e => e.source = n ∧ e.target ∉ visited)).map
      (fun e => (e.target, e.index)))

theorem mem_level_edges_iff {g : GraphState} {visited : Finset Nat} {n x : Nat} :
    x ∈ (level_edges g visited n).map Prod.fst ↔
      ∃ e ∈ g.edges, e.source = n ∧ e.target = x ∧ x ∉ visited := by
  simp only [level_edges, List.mem_map]
  constructor
  · rintro ⟨⟨t, i⟩, hmem, rfl⟩
    rw [mem_sort_by_index] at hmem
    simp only [List.mem_map, List.mem_filter] at hmem
    obtain ⟨e, ⟨he, hcond⟩, heq⟩ := hmem
    simp only [decide_eq_true_eq] at hcond
    injection heq with h1 h2
    exact ⟨e, he, hcond.1, h1, h1 ▸ hcond.2⟩
  · rintro ⟨e, he, hsrc, htgt, hvis⟩
    refine ⟨(e.target, e.index), ?_, htgt⟩
    rw [mem_sort_by_index]
    simp only [List.mem_map, List.mem_filter]
    exact ⟨e, ⟨he, by simp [hsrc, htgt ▸ hvis]⟩, rfl⟩

/-- The `while let Some(node_index) = stack.pop()` loop of `sort_modules`. -/
def sort_loop (g : GraphState)
    (hwf : ∀ e ∈ g.edges, e.target < g.nodes.length) (visited : Finset Nat)
    (stack sorted : List Nat) (hst : ∀ x ∈ stack, x < g.nodes.length) :
    List Nat :=
  match stack with
  | [] => sorted
  | n :: rest =>
    if hmem : n ∈ visited then
      sort_loop g hwf visited rest (sorted ++ [n])
        (fun x hx => hst x (List.mem_cons_of_mem _ hx))
    else
      sort_loop g hwf (insert n visited)
        (((level_edges g (insert n visited) n).map Prod.fst).reverse ++ n :: rest)
        sorted
        (by
          intro x hx
          rcases List.mem_append.mp hx with hx | hx
          · rw [List.mem_reverse, mem_level_edges_iff] at hx
            obtain ⟨e, he, _, htgt, _⟩ := hx
            exact htgt ▸ hwf e he
          · exact hst x hx)
termination_by ((Finset.range g.nodes.length \ visited).card, stack.length)
decreasing_by
  · exact Prod.Lex.right _ (Nat.lt_succ_self _)
  · apply Prod.Lex.left
    apply Finset.card_lt_card
    constructor
    · intro x hx
      simp only [Finset.mem_sdiff, Finset.mem_insert] at *
      tauto
    · intro hsub
      have h1 : n ∈ Finset.range g.nodes.length \ visited := by
        simp only [Finset.mem_sdiff, Finset.mem_range]
        exact ⟨hst n (List.mem_cons_self _ _), hmem⟩
      have h2 := hsub h1
      simp only [Finset.mem_sdiff, Finset.mem_insert] at h2
      tauto

/-- `ModuleGraph::sort_modules`: DFS from the entry, emitting each node on a
pop that finds it already visited. -/
def sort_modules (g : GraphState) (entry : Nat)
    (hwf : ∀ e ∈ g.edges, e.target < g.nodes.length)
    (hentry : entry < g.nodes.length) : List Nat :=
  sort_loop g hwf ∅ [entry] []
    (fun x hx => by rw [List.mem_singleton] at hx; exact hx ▸ hentry)

/-- Reachability along graph edges. -/
inductive Reaches (g : GraphState) : Nat → Nat → Prop
  | refl (a : Nat) : Reaches g a a
  | step {a b c : Nat} (h : Reaches g a b) (e : ModuleEdge) (he : e ∈ g.edges)
      (hs : e.source = b) (ht : e.target = c) : Reaches g a c

theorem sort_loop_sound (g : GraphState)
    (hwf : ∀ e ∈ g.edges, e.target < g.nodes.length) (entry : Nat) :
    ∀ (visited : Finset Nat) (stack sorted : List Nat)
      (hst : ∀ x ∈ stack, x < g.nodes.length),
      (∀ x ∈ visited, Reaches g entry x) → (∀ x ∈ stack, Reaches g entry x) →
      (∀ x ∈ sorted, Reaches g entry x) →
      ∀ v ∈ sort_loop g hwf visited stack sorted hst, Reaches g entry v := by
  intro visited stack sorted hst
  induction visited, stack, sorted, hst using sort_loop.induct g hwf with
  | case1 visited sorted hst _ =>
    intro _ _ hsorted v hv
    rw [sort_loop] at hv
    exact hsorted v hv
  | case2 visited sorted n rest hst hmem _ ih =>
    intro hvis hstk hsorted v hv
    rw [sort_loop, dif_pos hmem] at hv
    refine ih hvis (fun x hx => hstk x (List.mem_cons_of_mem _ hx))
      (fun x hx => ?_) v hv
    rcases List.mem_append.mp hx with hx | hx
    · exact hsorted x hx
    · rw [List.mem_singleton] at hx
      exact hx ▸ hstk n (List.mem_cons_self _ _)
  | case3 visited sorted n rest hst hmem _ ih =>
    intro hvis hstk hsorted v hv
    rw [sort_loop, dif_neg hmem] at hv
    have hn : Reaches g entry n := hstk n (List.mem_cons_self _ _)
    refine ih (fun x hx => ?_) (fun x hx => ?_) hsorted v hv
    · rcases Finset.mem_insert.mp hx with rfl | hx
      · exact hn
      · exact hvis x hx
    · rcases List.mem_append.mp hx with hx | hx
      · rw [List.mem_reverse, mem_level_edges_iff] at hx
        obtain ⟨e, he, hsrc, htgt, _⟩ := hx
        exact Reaches.step hn e he hsrc htgt
      · rcases List.mem_cons.mp hx with rfl | hx
        · exact hn
        · exact hstk x (List.mem_cons_of_mem _ hx)

theorem sort_loop_complete (g : GraphState)
    (hwf : ∀ e ∈ g.edges, e.target < g.nodes.length) (entry : Nat) :
    ∀ (visited : Finset Nat) (stack sorted : List Nat)
      (hst : ∀ x ∈ stack, x < g.nodes.length),
      (∀ u ∈ visited, ∀ e ∈ g.edges, e.source = u →
        e.target ∈ visited ∨ e.target ∈ stack) →
      (∀ x ∈ visited, x ∈ sorted ∨ x ∈ stack) →
      (entry ∈ visited ∨ entry ∈ stack) →
      ∀ v, Reaches g entry v → v ∈ sort_loop g hwf visited stack sorted hst := by
  intro visited stack sorted hst
  induction visited, stack, sorted, hst using sort_loop.induct g hwf with
  | case1 visited sorted hst _ =>
    intro hclosed hvs hentry v hv
    rw [sort_loop]
    have hvisited : ∀ w, Reaches g entry w → w ∈ visited := by
      intro w hw
      induction hw with
      | refl =>
        rcases hentry with h | h
        · exact h
        · cases h
      | step hr e he hsrc htgt ihw =>
        rcases hclosed _ ihw e he hsrc with h | h
        · exact htgt ▸ h
        · rw [htgt] at h
          cases h
    rcases hvs v (hvisited v hv) with h | h
    · exact h
    · cases h
  | case2 visited sorted n rest hst hmem _ ih =>
    intro hclosed hvs hentry v hv
    rw [sort_loop, dif_pos hmem]
    refine ih (fun u hu e he hsrc => ?_) (fun x hx => ?_) ?_ v hv
    · rcases hclosed u hu e he hsrc with h | h
      · exact Or.inl h
      · rcases List.mem_cons.mp h with h | h
        · exact Or.inl (h ▸ hmem)
        · exact Or.inr h
    · rcases hvs x hx with h | h
      · exact Or.inl (List.mem_append_left _ h)
      · rcases List.mem_cons.mp h with rfl | h
        · exact Or.inl (List.mem_append_right _ (List.mem_singleton.mpr rfl))
        · exact Or.inr h
    · rcases hentry with h | h
      · exact Or.inl h
      · rcases List.mem_cons.mp h with rfl | h
        · exact Or.inl hmem
        · exact Or.inr h
  | case3 visited sorted n rest hst hmem _ ih =>
    intro hclosed hvs hentry v hv
    rw [sort_loop, dif_neg hmem]
    have hsub : ∀ x ∈ (n :: rest : List Nat),
        x ∈ ((level_edges g (insert n visited) n).map Prod.fst).reverse
          ++ n :: rest :=
      fun x hx => List.mem_append_right _ hx
    refine ih (fun u hu e he hsrc => ?_) (fun x hx => ?_) ?_ v hv
    · rcases Finset.mem_insert.mp hu with rfl | hu
      · by_cases htv : e.target ∈ insert u visited
        · exact Or.inl htv
        · refine Or.inr (List.mem_append_left _ ?_)
          rw [List.mem_reverse, mem_level_edges_iff]
          exact ⟨e, he, hsrc, rfl, htv⟩
      · rcases hclosed u hu e he hsrc with h | h
        · exact Or.inl (Finset.mem_insert_of_mem h)
        · rcases List.mem_cons.mp h with h | h
          · exact Or.inl (h ▸ Finset.mem_insert_self _ _)
          · exact Or.inr (hsub _ (List.mem_cons_of_mem _ h))
    · rcases Finset.mem_insert.mp hx with rfl | hx
      · exact Or.inr (hsub _ (List.mem_cons_self _ _))
      · rcases hvs x hx with h | h
        · exact Or.inl h
        · exact Or.inr (hsub _ h)
    · rcases hentry with h | h
      · exact Or.inl (Finset.mem_insert_of_mem h)
      · exact Or.inr (hsub _ h)

/-- C3 (amended): `sort_modules` outputs exactly the modules reachable from
the entry, each at least once; neither the exactly-once property nor the
dependencies-precede-dependents property holds in general. -/
theorem sort_modules_mem_iff (g : GraphState)
    (hwf : ∀ e ∈ g.edges, e.target < g.nodes.length) (entry : Nat)
    (hentry : entry < g.nodes.length) (v : Nat) :
    v ∈ sort_modules g entry hwf hentry ↔ Reaches g entry v := by
  constructor
  · intro hv
    refine sort_loop_sound g hwf entry ∅ [entry] [] _
      (fun x hx => absurd hx (Finset.not_mem_empty x))
      (fun x hx => ?_) (fun x hx => absurd hx (List.not_mem_nil x)) v hv
    rw [List.mem_singleton] at hx
    rw [hx]
    exact Reaches.refl entry
  · intro hv
    refine sort_loop_complete g hwf entry ∅ [entry] [] _
      (fun u hu => absurd hu (Finset.not_mem_empty u))
      (fun x hx => absurd hx (Finset.not_mem_empty x))
      (Or.inr (List.mem_singleton.mpr rfl)) v hv

/-- Two-module graph with a two-edge multipath and a cycle:
`index.d.ts` imports and re-exports from `m1.d.ts` (two edges `0 → 1` with
indices 0 and 1) and `m1.d.ts` imports back from `index.d.ts`
(edge `1 → 0`). -/
def c3Graph : GraphState :=
  { entry_module_index := 0, nodes := ["index.d.ts", "m1.d.ts"],
    edges := [{ source := 0, target := 1, kind := .importK, index := 0 },
              { source := 0, target := 1, kind := .exportNamedK, index := 1 },
              { source := 1, target := 0, kind := .importK, index := 0 }],
    sorted_modules := [], id_to_module := [] }

/-- C3 counterexample: on `c3Graph`, `sort_modules` emits module 1 twice
(module 1 is pushed once per `0 → 1` edge before it is visited, and every pop
of a visited node appends it), so a reachable module does not appear exactly
once; moreover for the edge `1 → 0` (both endpoints reachable) its target 0
appears only after both occurrences of 1, so dependencies do not precede
dependents on cycles. -/
theorem sort_modules_duplicates_and_misorders :
    sort_modules c3Graph 0 (by decide) (by decide) = [1, 1, 0] ∧
    List.count 1 (sort_modules c3Graph 0 (by decide) (by decide)) = 2 ∧
    Reaches c3Graph 0 1 ∧
    ({ source := 1, target := 0, kind := .importK, index := 0 } : ModuleEdge)
      ∈ c3Graph.edges := by
  have h : sort_modules c3Graph 0 (by decide) (by decide) = [1, 1, 0] := by
    simp [sort_modules, sort_loop, level_edges, sort_by_index, insert_by_index,
      c3Graph, List.filter]
  refine ⟨h, by rw [h]; decide, ?_, by decide⟩
  exact Reaches.step (Reaches.refl 0)
    { source := 0, target := 1, kind := .importK, index := 0 }
    (by decide) rfl rfl

/-- Witness for `sort_modules_mem_iff` on `c3Graph`: module 1 is in the output
because it is reachable. -/
theorem sort_modules_mem_iff_witness :
    1 ∈ sort_modules c3Graph 0 (by decide) (by decide) :=
  (sort_modules_mem_iff c3Graph (by decide) 0 (by decide) 1).mpr
    (Reaches.step (Reaches.refl 0)
      { source := 0, target := 1, kind := .importK, index := 0 }
      (by decide) rfl rfl)

/-! ## Worker edge emission (`AsyncWorker::add_import_graph` /
`add_export_graph`, `src/graph/async_worker.rs` 88-161)

`add_import_graph` walks the values of the `imports` map but keeps a local
`HashSet` of resolved target ids and sends a `NewDependency` only for the
first binding per target module; `add_export_graph` sends one message per
source-bearing `local_exports` entry.  Failed `unwrap`s are `Except.error`. -/

/-- Edge weight carried by a `NewDependency` message (a `ModuleEdge` variant
with its index; endpoints travel separately as ids). -/
structure DependencyEdge where
  kind : EdgeKind
  index : Nat
deriving DecidableEq, Repr

/-- `WorkerMessage::NewDependency`. -/
structure NewDependencyMsg where
  from_id : String
  to_id : String
  edge : DependencyEdge
deriving DecidableEq, Repr

def add_import_graph_aux (m : Module) :
    List ModuleImport → Finset String → Except String (List NewDependencyMsg)
  | [], _ => .ok []
  | imp :: rest, seen =>
    match List.lookup imp.src m.src_to_resolved_id with
    | none => .error "unwrap failed: src_to_resolved_id"
    | some module_id =>
      if module_id ∈ seen then add_import_graph_aux m rest seen
      else
        match add_import_graph_aux m rest (insert module_id seen) with
        | .error e => .error e
        | .ok msgs =>
          .ok ({ from_id := m.id, to_id := module_id,
                 edge := { kind := .importK, index := imp.index } } :: msgs)

/-- `AsyncWorker::add_import_graph`. -/
def add_import_graph (m : Module) (imports : List ModuleImport) :
    Except String (List NewDependencyMsg) :=
  add_import_graph_aux m imports ∅

/-- `AsyncWorker::add_export_graph`. -/
def add_export_graph (m : Module) :
    List ModuleExport → Except String (List NewDependencyMsg)
  | [] => .ok []
  | ex :: rest =>
    match (match ex with
           | .name e => e.src.map (fun s => (s, e.index))
           | .all e => some (e.src, some e.index)
           | .namespaced e => some (e.src, some e.index)) with
    | none => add_export_graph m rest
    | some (src, oidx) =>
      match List.lookup src m.src_to_resolved_id with
      | none => .error "unwrap failed: src_to_resolved_id"
      | some resolved_id =>
        match oidx with
        | none => .error "unwrap failed: module_export_index"
        | some index =>
          match add_export_graph m rest with
          | .error e => .error e
          | .ok msgs =>
            .ok ({ from_id := m.id, to_id := resolved_id,
                   edge := { kind := match ex with
                             | .name _ => .exportNamedK
                             | .all _ => .exportAllK
                             | .namespaced _ => .exportNamespaceK,
                             index := index } } :: msgs)

/-- Resolved target of one import binding. -/
def import_target (m : Module) (imp : ModuleImport) : Option String :=
  List.lookup imp.src m.src_to_resolved_id

/-- Whether a `local_exports` entry carries a source. -/
def ModuleExport.has_src : ModuleExport → Bool
  | .name e => e.src.isSome
  | .all _ => true
  | .namespaced _ => true

theorem add_import_graph_aux_count (m : Module) :
    ∀ (imports : List ModuleImport) (seen : Finset String),
      (∀ imp ∈ imports, (import_target m imp).isSome) →
      ∃ msgs, add_import_graph_aux m imports seen = .ok msgs ∧
        msgs.length =
          ((imports.filterMap (import_target m)).toFinset \ seen).card := by
  intro imports
  induction imports with
  | nil => intro seen _; exact ⟨[], rfl, by simp⟩
  | cons imp rest ih =>
    intro seen hres
    cases htid : List.lookup imp.src m.src_to_resolved_id with
    | none =>
      have := hres imp (List.mem_cons_self _ _)
      rw [import_target, htid] at this
      cases this
    | some tid =>
      have hrest : ∀ i ∈ rest, (import_target m i).isSome :=
        fun i hi => hres i (List.mem_cons_of_mem _ hi)
      have hmapcons : (imp :: rest).filterMap (import_target m)
          = tid :: rest.filterMap (import_target m) := by
        simp [List.filterMap_cons, import_target, htid]
      by_cases hseen : tid ∈ seen
      · obtain ⟨msgs, hmsgs, hlen⟩ := ih seen hrest
        refine ⟨msgs, ?_, ?_⟩
        · simp only [add_import_graph_aux, htid, if_pos hseen]
          exact hmsgs
        · rw [hlen, hmapcons]
          congr 1
          rw [List.toFinset_cons]
          rw [Finset.insert_sdiff_of_mem _ hseen]
      · obtain ⟨msgs, hmsgs, hlen⟩ := ih (insert tid seen) hrest
        refine ⟨{ from_id := m.id, to_id := tid,
                  edge := { kind := .importK, index := imp.index } } :: msgs,
          ?_, ?_⟩
        · simp only [add_import_graph_aux, htid, if_neg hseen, hmsgs]
        · have hset : insert tid
              ((rest.filterMap (import_target m)).toFinset \ seen)
              = insert tid
                (((rest.filterMap (import_target m)).toFinset \ seen).erase tid) := by
            ext x
            simp only [Finset.mem_insert, Finset.mem_erase]
            constructor
            · rintro (rfl | hx)
              · exact Or.inl rfl
              · by_cases hxt : x = tid
                · exact Or.inl hxt
                · exact Or.inr ⟨hxt, hx⟩
            · rintro (rfl | ⟨_, hx⟩)
              · exact Or.inl rfl
              · exact Or.inr hx
          simp only [List.length_cons, hlen, hmapcons, List.toFinset_cons]
          rw [Finset.insert_sdiff_of_not_mem _ hseen, Finset.sdiff_insert, hset,
            Finset.card_insert_of_not_mem (Finset.not_mem_erase _ _)]

/-- C9 (amended, import part): with every import source resolvable,
`add_import_graph` succeeds and sends exactly one `NewDependency` per
distinct resolved target module of the `imports` map (not one per import
binding); the counterexample shows two bindings from one source producing a
single message. -/
theorem add_import_graph_message_count (m : Module)
    (imports : List ModuleImport)
    (h : ∀ imp ∈ imports, (import_target m imp).isSome) :
    ∃ msgs, add_import_graph m imports = .ok msgs ∧
      msgs.length = (imports.filterMap (import_target m)).toFinset.card := by
  obtain ⟨msgs, hmsgs, hlen⟩ := add_import_graph_aux_count m imports ∅ h
  exact ⟨msgs, hmsgs, by simpa using hlen⟩

theorem add_export_graph_message_count (m : Module) :
    ∀ (exports : List ModuleExport),
      (∀ ex ∈ exports, ex.has_src = true →
        ∃ src oidx, (match ex with
            | .name e => e.src.map (fun s => (s, e.index))
            | .all e => some (e.src, some e.index)
            | .namespaced e => some (e.src, some e.index)) = some (src, oidx) ∧
          (List.lookup src m.src_to_resolved_id).isSome ∧ oidx.isSome) →
      ∃ msgs, add_export_graph m exports = .ok msgs ∧
        msgs.length = exports.countP (fun ex => ex.has_src) := by
  intro exports
  induction exports with
  | nil => intro _; exact ⟨[], rfl, by simp⟩
  | cons ex rest ih =>
    intro hres
    have hrest := fun e he hs => hres e (List.mem_cons_of_mem _ he) hs
    obtain ⟨msgs, hmsgs, hlen⟩ := ih hrest
    cases ex with
    | name e =>
      cases hsrc : e.src with
      | none =>
        refine ⟨msgs, ?_, ?_⟩
        · simp only [add_export_graph, hsrc, Option.map_none']
          exact hmsgs
        · rw [hlen]
          simp [List.countP_cons, ModuleExport.has_src, hsrc]
      | some src =>
        obtain ⟨src', oidx, hmatch, hlook, hidx⟩ :=
          hres (.name e) (List.mem_cons_self _ _)
            (by simp [ModuleExport.has_src, hsrc])
        simp only [hsrc, Option.map_some'] at hmatch
        injection hmatch with hmatch
        injection hmatch with h1 h2
        subst h1; subst h2
        obtain ⟨tid, htid⟩ := Option.isSome_iff_exists.mp hlook
        obtain ⟨idx, hidx'⟩ := Option.isSome_iff_exists.mp hidx
        refine ⟨{ from_id := m.id, to_id := tid,
                  edge := { kind := .exportNamedK, index := idx } } :: msgs,
          ?_, ?_⟩
        · simp only [add_export_graph, hsrc, Option.map_some', htid, hidx', hmsgs]
        · simp [List.countP_cons, ModuleExport.has_src, hsrc, hlen]
    | all e =>
      obtain ⟨src', oidx, hmatch, hlook, _⟩ :=
        hres (.all e) (List.mem_cons_self _ _) rfl
      injection hmatch with hmatch
      injection hmatch with h1 h2
      subst h1; subst h2
      obtain ⟨tid, htid⟩ := Option.isSome_iff_exists.mp hlook
      refine ⟨{ from_id := m.id, to_id := tid,
                edge := { kind := .exportAllK, index := e.index } } :: msgs,
        ?_, ?_⟩
      · simp only [add_export_graph, htid, hmsgs]
      · simp [List.countP_cons, ModuleExport.has_src, hlen]
    | namespaced e =>
      obtain ⟨src', oidx, hmatch, hlook, _⟩ :=
        hres (.namespaced e) (List.mem_cons_self _ _) rfl
      injection hmatch with hmatch
      injection hmatch with h1 h2
      subst h1; subst h2
      obtain ⟨tid, htid⟩ := Option.isSome_iff_exists.mp hlook
      refine ⟨{ from_id := m.id, to_id := tid,
                edge := { kind := .exportNamespaceK, index := e.index } } :: msgs,
        ?_, ?_⟩
      · simp only [add_export_graph, htid, hmsgs]
      · simp [List.countP_cons, ModuleExport.has_src, hlen]

/-- C9 (amended): for a successfully analyzed module with resolvable sources,
the worker sends one `NewDependency` per distinct resolved target module of the
`imports` map (not one per import binding) and one per source-bearing
`local_exports` entry. -/
theorem add_graphs_message_counts (m : Module) (imports : List ModuleImport)
    (exports : List ModuleExport)
    (h1 : ∀ imp ∈ imports, (import_target m imp).isSome)
    (h2 : ∀ ex ∈ exports, ex.has_src = true →
      ∃ src oidx, (match ex with
          | .name e => e.src.map (fun s => (s, e.index))
          | .all e => some (e.src, some e.index)
          | .namespaced e => some (e.src, some e.index)) = some (src, oidx) ∧
        (List.lookup src m.src_to_resolved_id).isSome ∧ oidx.isSome) :
    (∃ imsgs, add_import_graph m imports = .ok imsgs ∧
      imsgs.length = (imports.filterMap (import_target m)).toFinset.card) ∧
    (∃ emsgs, add_export_graph m exports = .ok emsgs ∧
      emsgs.length = exports.countP (fun ex => ex.has_src)) :=
  ⟨add_import_graph_message_count m imports h1,
   add_export_graph_message_count m exports h2⟩

/-- Module with two import bindings (`a`, `b`) drawn from the same source
`./x`. -/
def c9Module : Module :=
  { id := "index.d.ts", is_entry := true, statements := [],
    imports := [{ index := 0, mark := 1, local_name := "a",
                  original_ident := .name "a", src := "./x" },
                { index := 1, mark := 2, local_name := "b",
                  original_ident := .name "b", src := "./x" }],
    local_exports := [], exports := [],
    src_to_resolved_id := [("./x", "x.d.ts")] }

/-- C9 counterexample: two distinct imported local bindings from the same
source produce a single `NewDependency` message (the worker deduplicates by
resolved target module), not one per `imports` entry. -/
theorem add_import_graph_dedups_by_target :
    c9Module.imports.length = 2 ∧
    add_import_graph c9Module c9Module.imports =
      .ok [{ from_id := "index.d.ts", to_id := "x.d.ts",
             edge := { kind := .importK, index := 0 } }] :=
  ⟨rfl, rfl⟩

/-- Witness for `add_graphs_message_counts` at the concrete module. -/
theorem add_graphs_message_counts_witness :
    (∃ imsgs, add_import_graph c9Module c9Module.imports = .ok imsgs ∧
      imsgs.length =
        (c9Module.imports.filterMap (import_target c9Module)).toFinset.card) ∧
    (∃ emsgs, add_export_graph c9Module ([] : List ModuleExport) = .ok emsgs ∧
      emsgs.length = ([] : List ModuleExport).countP (fun ex => ex.has_src)) :=
  add_graphs_message_counts c9Module c9Module.imports []
    (by decide) (fun ex hex _ => absurd hex (List.not_mem_nil ex))

/-! ## Module analyzer (`ModuleAnalyzer`, `src/ast/module_analyzer.rs`)

Embedding of the scoped visitor for the top-level statement forms the claims
are about.  Declarations are carried without their bodies (type references are
irrelevant to the mark-assignment claims), so the interface/type-alias
visitors reduce to: allocate a fresh mark, write it into the statement context,
and bind the name in the current scope.  The source pre-allocates one
`StatementContext` per statement and fills the one at `current_statement_index`
while visiting that statement; since a statement only ever writes its own
context, the embedding builds each context during its statement's visit and
appends it. -/

/-- `VariableDeclaration` from `src/ast/scope.rs`. -/
inductive VariableDeclaration
  | tsInterfaceDeclaration
  | tsTypeAliasDeclaration
  | tsTypeParameter
  | tsEnumDeclaration
  | variableDeclaration
  | functionDeclaration
  | classDeclaration
deriving DecidableEq, Repr

/-- `Definition` from `src/ast/scope.rs`. -/
structure Definition where
  kind : VariableDeclaration
  mark : Nat
deriving DecidableEq, Repr

/-- `StatementContext` from `src/ast/module_analyzer.rs`. -/
structure StatementContext where
  index : Nat
  is_import : Bool
  is_export : Bool
  is_export_decl : Bool
  reads : List Nat
  mark : Option Nat
deriving DecidableEq, Repr

def empty_ctx (i : Nat) : StatementContext :=
  { index := i, is_import := false, is_export := false, is_export_decl := false,
    reads := [], mark := none }

/-- Top-level declarations, without bodies. -/
inductive MiniDecl
  | tsInterface (name : String)
  | tsTypeAlias (name : String)
deriving DecidableEq, Repr

def MiniDecl.name : MiniDecl → String
  | .tsInterface n => n
  | .tsTypeAlias n => n

/-- `ImportSpecifier` subset. -/
inductive MiniImportSpecifier
  | named (local_name : String) (imported : Option String)
  | defaultSpec (local_name : String)
  | namespaceSpec (local_name : String)
deriving DecidableEq, Repr

/-- `ExportSpecifier` subset. -/
inductive MiniExportSpecifier
  | named (orig : String) (exported : Option String)
  | namespaceSpec (name : String)
deriving DecidableEq, Repr

/-- Top-level statement forms handled by `visit_mut_module_decl` /
plain declarations. -/
inductive MiniModuleItem
  | importDecl (specifiers : List MiniImportSpecifier) (src : String)
  | exportDecl (decl : MiniDecl)
  | exportNamed (specifiers : List MiniExportSpecifier) (src : Option String)
  | exportDefaultDecl (decl : MiniDecl)
  | exportAll (src : String)
  | stmtDecl (decl : MiniDecl)
deriving DecidableEq, Repr

/-- `ModuleAnalyzer` state: allocator, scope stack (head = innermost),
import-index counter, `imports` map, `exports`, and the statement contexts
filled so far (in statement order). -/
structure ModuleAnalyzer where
  box : SymbolBox
  scope : List (List (String × Definition))
  current_import_index : Nat
  imports : List (String × ModuleImport)
  exports : List ModuleExport
  statement_context : List StatementContext

/-- `ModuleAnalyzer::new`: one `TypeScope` on the stack. -/
def ModuleAnalyzer.new : ModuleAnalyzer :=
  { box := SymbolBox.init, scope := [[]], current_import_index := 0,
    imports := [], exports := [], statement_context := [] }

/-- `Scope::add_variable_definition`: vacant names are bound; re-binding is
allowed only for interfaces (declaration merging) and keeps the existing
definition; any other duplicate is a panic. -/
def add_variable_definition (scope : List (List (String × Definition)))
    (name : String) (kind : VariableDeclaration) (mark : Nat) :
    Except String (List (List (String × Definition))) :=
  match scope with
  | [] => .error "unwrap failed: get_current_scope_mut"
  | top :: rest =>
    match List.lookup name top with
    | none => .ok (((name, { kind := kind, mark := mark }) :: top) :: rest)
    | some _ =>
      if kind = VariableDeclaration.tsInterfaceDeclaration then .ok (top :: rest)
      else .error "[Scope] unable to declare multiple times"

/-- `ModuleAnalyzer::get_mark_by_name`: innermost scope first, then the
`imports` map. -/
def get_mark_by_name (st : ModuleAnalyzer) (name : String) : Option Nat :=
  match st.scope.findSome? (fun sc => List.lookup name sc) with
  | some d => some d.mark
  | none => (List.lookup name st.imports).map (fun mi => mi.mark)

/-- Visiting one declaration (`visit_mut_ts_interface_decl` /
`visit_mut_ts_type_alias_decl`): fresh mark, written into the statement
context and the identifier; the name is bound in the current scope.  Returns
the assigned mark. -/
def visit_decl (st : ModuleAnalyzer) (ctx : StatementContext) (d : MiniDecl) :
    Except String (ModuleAnalyzer × StatementContext × Nat) :=
  match d with
  | .tsInterface name =>
    match (st.box.new_mark) with
    | (m, box') =>
      match add_variable_definition st.scope name
          VariableDeclaration.tsInterfaceDeclaration m with
      | .error e => .error e
      | .ok scope' =>
        .ok ({ st with box := box', scope := scope' },
             { ctx with mark := some m }, m)
  | .tsTypeAlias name =>
    match (st.box.new_mark) with
    | (m, box') =>
      match add_variable_definition st.scope name
          VariableDeclaration.tsTypeAliasDeclaration m with
      | .error e => .error e
      | .ok scope' =>
        .ok ({ st with box := box', scope := scope' },
             { ctx with mark := some m }, m)

/-- `ModuleAnalyzer::add_import`: one fresh mark and one `imports` entry per
specifier (vacant local names only); all bindings of one statement share the
current import index. -/
def add_import (st : ModuleAnalyzer) (specs : List MiniImportSpecifier)
    (src : String) : ModuleAnalyzer :=
  specs.foldl
    (fun st spec =>
      let local_name := match spec with
        | .named l _ => l
        | .defaultSpec l => l
        | .namespaceSpec l => l
      let original : ImportIdent := match spec with
        | .named l i => .name (i.getD l)
        | .defaultSpec _ => .name "default"
        | .namespaceSpec _ => .namespaced
      match st.box.new_mark with
      | (m, box') =>
        let st := { st with box := box' }
        match List.lookup local_name st.imports with
        | some _ => st
        | none =>
          { st with imports := (local_name,
              { index := st.current_import_index, mark := m,
                local_name := local_name, original_ident := original,
                src := src }) :: st.imports })
    st

/-- The `ExportSpecifier` loop of the `ExportNamed` arm: returns the updated
state and the `is_export_decl` flag. -/
def visit_export_specifiers (src : Option String) :
    List MiniExportSpecifier → ModuleAnalyzer → Bool →
    Except String (ModuleAnalyzer × Bool)
  | [], st, flag => .ok (st, flag)
  | .named orig exported :: rest, st, flag =>
    let (m, box') := match get_mark_by_name st orig with
      | some m => (m, st.box)
      | none => st.box.new_mark
    let st := { st with box := box' }
    let exported_name := exported.getD orig
    let st := { st with
      exports := st.exports ++ [ModuleExport.name
        { exported_name := exported_name,
          original_ident := .name orig src, mark := m, src := src,
          index := if src.isSome then some st.current_import_index else none }] }
    let st := if src.isSome
      then { st with current_import_index := st.current_import_index + 1 }
      else st
    visit_export_specifiers src rest st flag
  | .namespaceSpec name :: rest, st, _ =>
    match st.box.new_mark with
    | (m, box') =>
      let st := { st with box := box' }
      match src with
      | none => .error "unwrap failed: namespace export without source"
      | some s =>
        let st := { st with
          exports := st.exports ++ [ModuleExport.namespaced
            { index := st.current_import_index, exported_name := name,
              original_ident := .namespaced, mark := m, src := s }] }
        let st := { st with current_import_index := st.current_import_index + 1 }
        visit_export_specifiers src rest st true

/-- `visit_mut_module_item` for one top-level statement: fills this
statement's context and updates the analyzer state. -/
def visit_item (st : ModuleAnalyzer) (i : Nat) (item : MiniModuleItem) :
    Except String ModuleAnalyzer :=
  let ctx := empty_ctx i
  match item with
  | .importDecl specs src =>
    let st := add_import st specs src
    let ctx := { ctx with is_import := true }
    let st := { st with current_import_index := st.current_import_index + 1 }
    .ok { st with statement_context := st.statement_context ++ [ctx] }
  | .exportDecl d =>
    let ctx := { ctx with is_export := true, is_export_decl := true }
    match visit_decl st ctx d with
    | .error e => .error e
    | .ok (st, ctx, m) =>
      let st := { st with
        exports := st.exports ++ [ModuleExport.name
          { exported_name := d.name, original_ident := .name d.name none,
            mark := m, src := none, index := none }] }
      .ok { st with statement_context := st.statement_context ++ [ctx] }
  | .exportNamed specs src =>
    let ctx := { ctx with is_export := true }
    match visit_export_specifiers src specs st false with
    | .error e => .error e
    | .ok (st, flag) =>
      let ctx := { ctx with is_export_decl := flag }
      .ok { st with statement_context := st.statement_context ++ [ctx] }
  | .exportDefaultDecl d =>
    let ctx := { ctx with is_export := true, is_export_decl := true }
    match st.box.new_mark with
    | (m0, box') =>
      let st := { st with box := box' }
      let st := { st with
        exports := st.exports ++ [ModuleExport.name
          { exported_name := "default", original_ident := .name "default" none,
            mark := m0, src := none, index := none }] }
      match visit_decl st ctx d with
      | .error e => .error e
      | .ok (st, ctx, _) =>
        .ok { st with statement_context := st.statement_context ++ [ctx] }
  | .exportAll src =>
    let ctx := { ctx with is_export := true }
    match st.box.new_mark with
    | (_, box') =>
      let st := { st with box := box' }
      let st := { st with
        exports := st.exports ++ [ModuleExport.all
          { index := st.current_import_index, src := src }] }
      let st := { st with current_import_index := st.current_import_index + 1 }
      .ok { st with statement_context := st.statement_context ++ [ctx] }
  | .stmtDecl d =>
    match visit_decl st ctx d with
    | .error e => .error e
    | .ok (st, ctx, _) =>
      .ok { st with statement_context := st.statement_context ++ [ctx] }

def analyze_items : List MiniModuleItem → Nat → ModuleAnalyzer →
    Except String ModuleAnalyzer
  | [], _, st => .ok st
  | item :: rest, i, st =>
    match visit_item st i item with
    | .error e => .error e
    | .ok st1 => analyze_items rest (i + 1) st1

/-- `Module::analyze`: run the visitor over the top-level statements. -/
def analyze (items : List MiniModuleItem) : Except String ModuleAnalyzer :=
  analyze_items items 0 ModuleAnalyzer.new

/-- `Module::generate_statements_from_ctxt` (`src/ast/module.rs` 140-170):
zip statements with their contexts; a declaration statement without a recorded
mark is the `Mark is supposed to be available` panic. -/
def generate_statements_from_ctxt (items : List MiniModuleItem)
    (ctxts : List StatementContext) : Except String (List Statement) :=
  (items.zip ctxts).foldr
    (fun (p : MiniModuleItem × StatementContext) acc =>
      match acc with
      | .error e => .error e
      | .ok stmts =>
        let ctxt := p.2
        if ctxt.is_import then .ok (Statement.importStatement :: stmts)
        else if ctxt.is_export && !ctxt.is_export_decl then
          .ok (Statement.exportStatementNonDecl :: stmts)
        else
          match ctxt.mark with
          | none =>
            .error "[Module] Mark is supposed to be available in StatementCtxt, please file an issue"
          | some m =>
            .ok (Statement.declStatement
              { included := false, reads := ctxt.reads,
                is_export_decl := ctxt.is_export_decl, mark := m } :: stmts))
    (.ok [])

/-- Module consisting of the single statement
`export default interface A { ... }`. -/
def c6Items : List MiniModuleItem := [.exportDefaultDecl (.tsInterface "A")]

def c6Analyzed : ModuleAnalyzer :=
  match analyze c6Items with
  | .ok st => st
  | .error _ => ModuleAnalyzer.new

/-- C6: for `export default interface A`, the analyzer pushes a `default`
export entry carrying a fresh mark (1) allocated before the declaration is
visited, while the declaration itself (and its statement context) receives a
different fresh mark (2); the two marks are never unified, so importing
`default` does not reach the declaration through the union-find. -/
theorem export_default_decl_fresh_mark_not_decl_mark :
    analyze c6Items = .ok c6Analyzed ∧
    c6Analyzed.exports = [ModuleExport.name
      { exported_name := "default", original_ident := .name "default" none,
        mark := 1, src := none, index := none }] ∧
    c6Analyzed.statement_context.map (fun c => c.mark) = [some 2] ∧
    c6Analyzed.box.find_root 1 = 1 ∧ c6Analyzed.box.find_root 2 = 2 :=
  ⟨rfl, rfl, rfl, rfl, rfl⟩

/-- Module consisting of the single statement `export * as N from "./x"`. -/
def c7Items : List MiniModuleItem := [.exportNamed [.namespaceSpec "N"] (some "./x")]

def c7Analyzed : ModuleAnalyzer :=
  match analyze c7Items with
  | .ok st => st
  | .error _ => ModuleAnalyzer.new

/-- C7: the statement `export * as N from "./x"` is classified as a
declaration statement (`is_export_decl = true`, not an import), but the
analyzer records no mark in its statement context, so
`generate_statements_from_ctxt` reaches the `Mark is supposed to be available`
failure branch. -/
theorem export_namespace_statement_mark_panic :
    analyze c7Items = .ok c7Analyzed ∧
    c7Analyzed.statement_context =
      [{ index := 0, is_import := false, is_export := true,
         is_export_decl := true, reads := [], mark := none }] ∧
    generate_statements_from_ctxt c7Items c7Analyzed.statement_context =
      .error "[Module] Mark is supposed to be available in StatementCtxt, please file an issue" :=
  ⟨rfl, rfl, rfl⟩

/-! ## Tree-shaking (`Module::include_statement_with_mark_set`,
`src/ast/module.rs` 172-226, and `Graph::include_with_tree_shaking`,
`src/graph/graph.rs` 301-329)

The per-module worklist: statements whose representative mark is in the set
seed the worklist; a popped mark bound to a local declaration includes that
statement and pushes its reads; a popped mark with no local statement adds its
representative to the shared mark set, to be discovered by modules visited
later in the (single) pass.  The worklist never reads the `included` flags, so
the embedding collects the included statement indices and applies them at the
end.  `mark_to_local_statement` indices always come from `enumerate`, hence
are in bounds; the out-of-bounds indexing panic is unreachable and not
modelled.  Worklists are lists with the head as the `Vec` top. -/

/-- The `mark → statement index` map (later statements overwrite; insertion
prepends so `List.lookup` sees the latest). -/
def mark_to_local_statement (stmts : List Statement) : List (Nat × Nat) :=
  stmts.enum.foldl
    (fun acc p =>
      match p.2 with
      | .declStatement s => (s.mark, p.1) :: acc
      | _ => acc) []

/-- All marks mentioned by a module's declaration statements (their own marks
and their reads); the universe for the worklist termination measure. -/
def all_marks (stmts : List Statement) : Finset Nat :=
  (stmts.foldr
    (fun s acc =>
      match s with
      | .declStatement d => d.mark :: (d.reads ++ acc)
      | _ => acc) []).toFinset

theorem all_marks_decl {stmts : List Statement} {d : DeclStatement}
    (h : Statement.declStatement d ∈ stmts) :
    d.mark ∈ all_marks stmts ∧ ∀ r ∈ d.reads, r ∈ all_marks stmts := by
  induction stmts with
  | nil => cases h
  | cons s rest ih =>
    rcases List.mem_cons.mp h with rfl | hmem
    · constructor
      · simp [all_marks]
      · intro r hr
        simp [all_marks, hr]
    · cases s with
      | declStatement d0 =>
        obtain ⟨h1, h2⟩ := ih hmem
        simp only [all_marks, List.foldr_cons, List.mem_toFinset] at h1 h2 ⊢
        exact ⟨by simp [h1], fun r hr => by simp [h2 r hr]⟩
      | importStatement => exact ih hmem
      | exportStatementNonDecl => exact ih hmem

theorem all_marks_get {stmts : List Statement} {i : Nat} {d : DeclStatement}
    (h : stmts.get? i = some (.declStatement d)) :
    d.mark ∈ all_marks stmts ∧ ∀ r ∈ d.reads, r ∈ all_marks stmts :=
  all_marks_decl (List.get?_mem h)

/-- The initial worklist in push order: marks of declaration statements whose
representative is in the seed set. -/
def initial_candidates (uf : SymbolBox) (stmts : List Statement)
    (set : Finset Nat) : List Nat :=
  stmts.foldr
    (fun s acc =>
      match s with
      | .declStatement d =>
        if uf.find_root d.mark ∈ set then d.mark :: acc else acc
      | _ => acc) []

theorem initial_candidates_subset (uf : SymbolBox) (stmts : List Statement)
    (set : Finset Nat) :
    ∀ m ∈ initial_candidates uf stmts set, m ∈ all_marks stmts := by
  intro m hm
  induction stmts with
  | nil => cases hm
  | cons s rest ih =>
    cases s with
    | declStatement d =>
      simp only [initial_candidates, List.foldr_cons] at hm
      have hcons : d.mark ∈ all_marks (Statement.declStatement d :: rest) ∧ _ :=
        all_marks_decl (List.mem_cons_self _ _)
      by_cases hr : uf.find_root d.mark ∈ set
      · rw [if_pos hr] at hm
        rcases List.mem_cons.mp hm with rfl | hm
        · exact hcons.1
        · have := ih hm
          simp only [all_marks, List.foldr_cons, List.mem_toFinset] at this ⊢
          simp [this]
      · rw [if_neg hr] at hm
        have := ih hm
        simp only [all_marks, List.foldr_cons, List.mem_toFinset] at this ⊢
        simp [this]
    | importStatement => exact ih hm
    | exportStatementNonDecl => exact ih hm

/-- The `while let Some(maybe_local_mark) = maybe_local_reads.pop()` worklist.
Returns the set of included statement indices and the final mark set. -/
def include_loop (uf : SymbolBox) (stmts : List Statement)
    (mtl : List (Nat × Nat)) (U : Finset Nat)
    (hstmts : ∀ i d, stmts.get? i = some (.declStatement d) →
      ∀ r ∈ d.reads, r ∈ U)
    (visited : Finset Nat) (ws : List Nat) (inc : Finset Nat)
    (set : Finset Nat) (hws : ∀ m ∈ ws, m ∈ U) : Finset Nat × Finset Nat :=
  match ws with
  | [] => (inc, set)
  | m :: rest =>
    if hm : m ∈ visited then
      include_loop uf stmts mtl U hstmts visited rest inc set
        (fun x hx => hws x (List.mem_cons_of_mem _ hx))
    else
      match hidx : List.lookup m mtl with
      | some i =>
        match hstmt : stmts.get? i with
        | some (.declStatement d) =>
          include_loop uf stmts mtl U hstmts (insert m visited)
            (d.reads.reverse ++ rest) (insert i inc) set
            (by
              intro x hx
              rcases List.mem_append.mp hx with hx | hx
              · exact hstmts i d hstmt x (List.mem_reverse.mp hx)
              · exact hws x (List.mem_cons_of_mem _ hx))
        | _ =>
          include_loop uf stmts mtl U hstmts (insert m visited) rest inc set
            (fun x hx => hws x (List.mem_cons_of_mem _ hx))
      | none =>
        include_loop uf stmts mtl U hstmts (insert m visited) rest inc
          (insert (uf.find_root m) set)
          (fun x hx => hws x (List.mem_cons_of_mem _ hx))
termination_by ((U \ visited).card, ws.length)
decreasing_by
  · exact Prod.Lex.right _ (Nat.lt_succ_self _)
  all_goals
    apply Prod.Lex.left
    apply Finset.card_lt_card
    constructor
    · intro x hx
      simp only [Finset.mem_sdiff, Finset.mem_insert] at *
      tauto
    · intro hsub
      have h1 : m ∈ U \ visited := by
        simp only [Finset.mem_sdiff]
        exact ⟨hws m (List.mem_cons_self _ _), hm⟩
      have h2 := hsub h1
      simp only [Finset.mem_sdiff, Finset.mem_insert] at h2
      tauto

/-- Application of the collected included indices (`s.include()`). -/
def apply_included (stmts : List Statement) (inc : Finset Nat) :
    List Statement :=
  stmts.enum.map
    (fun p =>
      match p.2 with
      | .declStatement d =>
        if p.1 ∈ inc then .declStatement { d with included := true } else p.2
      | s => s)

/-- `Module::include_statement_with_mark_set`. -/
def include_statement_with_mark_set (uf : SymbolBox) (m : Module)
    (set : Finset Nat) : Module × Finset Nat :=
  match include_loop uf m.statements (mark_to_local_statement m.statements)
      (all_marks m.statements) (fun i d h => (all_marks_get h).2) ∅
      (initial_candidates uf m.statements set).reverse ∅ set
      (fun x hx =>
        initial_candidates_subset uf m.statements set x
          (List.mem_reverse.mp hx)) with
  | (inc, set') =>
    ({ m with statements := apply_included m.statements inc }, set')

/-- The `node_indices().for_each` iteration of `include_with_tree_shaking`,
threading the shared mark set. -/
def include_sweep (uf : SymbolBox) :
    List Nat → GraphState → Finset Nat →
    Except String (GraphState × Finset Nat)
  | [], st, set => .ok (st, set)
  | mi :: rest, st, set =>
    match st.nodes.get? mi with
    | none => .error "invalid node index"
    | some id =>
      match List.lookup id st.id_to_module with
      | none => .error "unwrap failed: id_to_module"
      | some m =>
        match include_statement_with_mark_set uf m set with
        | (m', set') =>
          include_sweep uf rest
            { st with id_to_module := update_module st.id_to_module id m' }
            set'

/-- `Graph::include_with_tree_shaking`: seed with the representatives of the
entry module's export marks, then run the per-module inclusion over all node
indices (one pass). -/
def include_with_tree_shaking (uf : SymbolBox) (st : GraphState) :
    Except String GraphState :=
  match st.module_at st.entry_module_index with
  | none => .error "unwrap failed: entry module"
  | some entry =>
    match include_sweep uf (List.range st.nodes.length) st
        ((entry.exports.map (fun p => uf.find_root p.2.mark)).toFinset) with
    | .error e => .error e
    | .ok (st', _) => .ok st'

/-- The inclusion sweep as a pass over the modules in node-index order
(the same per-module calls `include_with_tree_shaking` makes, on the
materialized module sequence). -/
def include_sweep_modules (uf : SymbolBox) :
    List Module → Finset Nat → List Module × Finset Nat
  | [], set => ([], set)
  | m :: rest, set =>
    match include_statement_with_mark_set uf m set with
    | (m', set') =>
      match include_sweep_modules uf rest set' with
      | (ms, set'') => (m' :: ms, set'')

/-! Concrete three-module program for the tree-shaking invariant:

* `index.d.ts` (node 0): `import { Y } from "./a"; export { C } from "./b"`
  (import binding mark 1, re-export entry mark 2);
* `a.d.ts` (node 1): `export declare interface X {}` (mark 3) and
  `export declare interface Y {}` (mark 4);
* `b.d.ts` (node 2): `import { X } from "./a"` (binding mark 5) and
  `export declare interface C { f: X }` (mark 6, reads mark 5).

Node-index order puts `a.d.ts` before `b.d.ts` (the driver discovered the
entry's import edge first). -/

def c2ExportCEntry : ModuleExportName :=
  { exported_name := "C", original_ident := .name "C" (some "./b"), mark := 2,
    src := some "./b", index := some 1 }

def c2ExportX : ModuleExportName :=
  { exported_name := "X", original_ident := .name "X" none, mark := 3,
    src := none, index := none }

def c2ExportY : ModuleExportName :=
  { exported_name := "Y", original_ident := .name "Y" none, mark := 4,
    src := none, index := none }

def c2ExportCB : ModuleExportName :=
  { exported_name := "C", original_ident := .name "C" none, mark := 6,
    src := none, index := none }

def c2EntryModule : Module :=
  { id := "index.d.ts", is_entry := true,
    statements := [.importStatement, .exportStatementNonDecl],
    imports := [{ index := 0, mark := 1, local_name := "Y",
                  original_ident := .name "Y", src := "./a" }],
    local_exports := [.name c2ExportCEntry],
    exports := [("C", .name c2ExportCEntry)],
    src_to_resolved_id := [("./a", "a.d.ts"), ("./b", "b.d.ts")] }

def c2AModule : Module :=
  { id := "a.d.ts", is_entry := false,
    statements := [.declStatement { included := false, reads := [],
                                     is_export_decl := true, mark := 3 },
                   .declStatement { included := false, reads := [],
                                    is_export_decl := true, mark := 4 }],
    imports := [], local_exports := [.name c2ExportX, .name c2ExportY],
    exports := [("X", .name c2ExportX), ("Y", .name c2ExportY)],
    src_to_resolved_id := [] }

def c2BModule : Module :=
  { id := "b.d.ts", is_entry := false,
    statements := [.importStatement,
                   .declStatement { included := false, reads := [5],
                                    is_export_decl := true, mark := 6 }],
    imports := [{ index := 0, mark := 5, local_name := "X",
                  original_ident := .name "X", src := "./a" }],
    local_exports := [.name c2ExportCB],
    exports := [("C", .name c2ExportCB)],
    src_to_resolved_id := [("./a", "a.d.ts")] }

def c2Graph : GraphState :=
  { entry_module_index := 0, nodes := ["index.d.ts", "a.d.ts", "b.d.ts"],
    edges := [{ source := 0, target := 1, kind := .importK, index := 0 },
              { source := 0, target := 2, kind := .exportNamedK, index := 1 },
              { source := 2, target := 1, kind := .importK, index := 0 }],
    sorted_modules := [1, 2, 0],
    id_to_module := [("index.d.ts", c2EntryModule), ("a.d.ts", c2AModule),
                     ("b.d.ts", c2BModule)] }

/-- Symbol box after linking the three-module program: marks 1/4, 2/6 and 3/5
are unified. -/
def c2Box : SymbolBox :=
  match link_modules c2Graph SymbolBox.init with
  | .ok s => s
  | .error _ => SymbolBox.init

/-- `b.d.ts` with its declaration `C` included. -/
def c2BIncluded : Module :=
  { c2BModule with
    statements := [.importStatement,
                   .declStatement { included := true, reads := [5],
                                    is_export_decl := true, mark := 6 }] }

def c2After : GraphState :=
  { c2Graph with
    id_to_module := [("index.d.ts", c2EntryModule), ("a.d.ts", c2AModule),
                     ("b.d.ts", c2BIncluded)] }

/-- C2: on the linked three-module program the single-pass
`include_with_tree_shaking` includes `C` in `b.d.ts` (whose reads contain the
import-binding mark 5), but the declaration `X` in `a.d.ts` — the statement
mark 5 resolves to through the union-find (`find_root 5 = find_root 3`) —
stays excluded, because `a.d.ts` was processed before the pass learned that
mark: an included statement reads an existing but non-included declaration. -/
theorem include_with_tree_shaking_leaves_dangling_read :
    link_modules c2Graph SymbolBox.init = .ok c2Box ∧
    include_with_tree_shaking c2Box c2Graph = .ok c2After ∧
    List.lookup "b.d.ts" c2After.id_to_module = some c2BIncluded ∧
    List.lookup "a.d.ts" c2After.id_to_module = some c2AModule ∧
    c2Box.find_root 5 = c2Box.find_root 3 := by
  refine ⟨rfl, ?_, rfl, rfl, rfl⟩
  simp only [include_with_tree_shaking, include_sweep,
    include_statement_with_mark_set, GraphState.module_at, update_module,
    c2Graph, c2After, c2Box, c2EntryModule, c2AModule, c2BModule, c2BIncluded]
  simp [include_loop, initial_candidates, mark_to_local_statement,
    all_marks, apply_included, link_modules, link_modules_aux,
    link_one_module, link_module_imports, link_module_exports,
    link_import_step, link_export_step, SymbolBox.union, SymbolBox.find_root,
    SymbolBox.init, List.lookup, c2ExportCEntry, c2ExportX, c2ExportY,
    c2ExportCB, List.filter, List.enum, List.enumFrom,
    ExportOriginalIdent.lookupName, Exports.mark]

/-! Characterization of the per-module worklist: the marks it visits are
exactly the closure of the seeded statement marks under local reads
(`LocalReach`), and from this the inclusion result is monotone in the seed
set. -/

/-- Marks reached by the per-module worklist: statement marks whose
representative is in the seed set, closed under the reads of locally bound
statements. -/
inductive LocalReach (uf : SymbolBox) (stmts : List Statement)
    (mtl : List (Nat × Nat)) (set0 : Finset Nat) : Nat → Prop
  | init {j : Nat} {d : DeclStatement} :
      stmts.get? j = some (.declStatement d) → uf.find_root d.mark ∈ set0 →
      LocalReach uf stmts mtl set0 d.mark
  | step {m i r : Nat} {d : DeclStatement} :
      LocalReach uf stmts mtl set0 m → List.lookup m mtl = some i →
      stmts.get? i = some (.declStatement d) → r ∈ d.reads →
      LocalReach uf stmts mtl set0 r

theorem LocalReach.mono {uf stmts mtl} {S1 S2 : Finset Nat} (hS : S1 ⊆ S2)
    {m : Nat} (h : LocalReach uf stmts mtl S1 m) :
    LocalReach uf stmts mtl S2 m := by
  induction h with
  | init hget hroot => exact LocalReach.init hget (hS hroot)
  | step _ hidx hget hr ih => exact LocalReach.step ih hidx hget hr

/-- Specification of the included statement indices. -/
def spec_inc (uf : SymbolBox) (stmts : List Statement)
    (mtl : List (Nat × Nat)) (set0 : Finset Nat) (i : Nat) : Prop :=
  ∃ m d, LocalReach uf stmts mtl set0 m ∧ List.lookup m mtl = some i ∧
    stmts.get? i = some (.declStatement d)

/-- Specification of the final mark set. -/
def spec_set (uf : SymbolBox) (stmts : List Statement)
    (mtl : List (Nat × Nat)) (set0 : Finset Nat) (x : Nat) : Prop :=
  x ∈ set0 ∨ ∃ m, LocalReach uf stmts mtl set0 m ∧
    List.lookup m mtl = none ∧ x = uf.find_root m

theorem spec_inc_mono {uf stmts mtl} {S1 S2 : Finset Nat} (hS : S1 ⊆ S2)
    {i : Nat} (h : spec_inc uf stmts mtl S1 i) : spec_inc uf stmts mtl S2 i := by
  obtain ⟨m, d, hlr, h1, h2⟩ := h
  exact ⟨m, d, hlr.mono hS, h1, h2⟩

theorem spec_set_mono {uf stmts mtl} {S1 S2 : Finset Nat} (hS : S1 ⊆ S2)
    {x : Nat} (h : spec_set uf stmts mtl S1 x) : spec_set uf stmts mtl S2 x := by
  rcases h with h | ⟨m, hlr, h1, h2⟩
  · exact Or.inl (hS h)
  · exact Or.inr ⟨m, hlr.mono hS, h1, h2⟩

theorem mem_initial_candidates_iff (uf : SymbolBox) (stmts : List Statement)
    (set : Finset Nat) (m : Nat) :
    m ∈ initial_candidates uf stmts set ↔
      ∃ d, Statement.declStatement d ∈ stmts ∧ uf.find_root d.mark ∈ set ∧
        m = d.mark := by
  induction stmts with
  | nil => simp [initial_candidates]
  | cons s rest ih =>
    cases s with
    | declStatement d0 =>
      simp only [initial_candidates, List.foldr_cons] at ih ⊢
      by_cases hr : uf.find_root d0.mark ∈ set
      · rw [if_pos hr]
        constructor
        · intro hm
          rcases List.mem_cons.mp hm with rfl | hm
          · exact ⟨d0, List.mem_cons_self _ _, hr, rfl⟩
          · obtain ⟨d, hd, h1, h2⟩ := ih.mp hm
            exact ⟨d, List.mem_cons_of_mem _ hd, h1, h2⟩
        · rintro ⟨d, hd, h1, rfl⟩
          rcases List.mem_cons.mp hd with heq | hd
          · injection heq with heq
            subst heq
            exact List.mem_cons_self _ _
          · exact List.mem_cons_of_mem _ (ih.mpr ⟨d, hd, h1, rfl⟩)
      · rw [if_neg hr]
        constructor
        · intro hm
          obtain ⟨d, hd, h1, h2⟩ := ih.mp hm
          exact ⟨d, List.mem_cons_of_mem _ hd, h1, h2⟩
        · rintro ⟨d, hd, h1, rfl⟩
          rcases List.mem_cons.mp hd with heq | hd
          · injection heq with heq
            subst heq
            exact absurd h1 hr
          · exact ih.mpr ⟨d, hd, h1, rfl⟩
    | importStatement =>
      simp only [initial_candidates, List.foldr_cons] at ih ⊢
      rw [ih]
      constructor
      · rintro ⟨d, hd, h1, h2⟩
        exact ⟨d, List.mem_cons_of_mem _ hd, h1, h2⟩
      · rintro ⟨d, hd, h1, h2⟩
        rcases List.mem_cons.mp hd with heq | hd
        · cases heq
        · exact ⟨d, hd, h1, h2⟩
    | exportStatementNonDecl =>
      simp only [initial_candidates, List.foldr_cons] at ih ⊢
      rw [ih]
      constructor
      · rintro ⟨d, hd, h1, h2⟩
        exact ⟨d, List.mem_cons_of_mem _ hd, h1, h2⟩
      · rintro ⟨d, hd, h1, h2⟩
        rcases List.mem_cons.mp hd with heq | hd
        · cases heq
        · exact ⟨d, hd, h1, h2⟩

theorem include_loop_sound (uf : SymbolBox) (stmts : List Statement)
    (mtl : List (Nat × Nat)) (U : Finset Nat)
    (hstmts : ∀ i d, stmts.get? i = some (.declStatement d) →
      ∀ r ∈ d.reads, r ∈ U) (set0 : Finset Nat) :
    ∀ (visited : Finset Nat) (ws : List Nat) (inc set : Finset Nat)
      (hws : ∀ m ∈ ws, m ∈ U),
      (∀ m ∈ visited, LocalReach uf stmts mtl set0 m) →
      (∀ m ∈ ws, LocalReach uf stmts mtl set0 m) →
      (∀ i ∈ inc, spec_inc uf stmts mtl set0 i) →
      (∀ x ∈ set, spec_set uf stmts mtl set0 x) →
      (∀ i ∈ (include_loop uf stmts mtl U hstmts visited ws inc set hws).1,
        spec_inc uf stmts mtl set0 i) ∧
      (∀ x ∈ (include_loop uf stmts mtl U hstmts visited ws inc set hws).2,
        spec_set uf stmts mtl set0 x) := by
  intro visited ws inc set hws
  induction visited, ws, inc, set, hws using include_loop.induct uf stmts mtl U hstmts with
  | case1 visited inc set hws _ =>
    intro _ _ hinc hset
    rw [include_loop]
    exact ⟨hinc, hset⟩
  | case2 visited inc set m rest hws hmem _ ih =>
    intro hvis hwslr hinc hset
    rw [include_loop, dif_pos hmem]
    exact ih hvis (fun x hx => hwslr x (List.mem_cons_of_mem _ hx)) hinc hset
  | case3 visited inc set m rest hws hmem i hidx d hstmt _ ih =>
    intro hvis hwslr hinc hset
    rw [include_loop, dif_neg hmem]
    split
    · next i' heq =>
      rw [hidx] at heq
      injection heq with heq
      subst heq
      split
      · next d' hstmt' =>
        rw [hstmt] at hstmt'
        injection hstmt' with hstmt'
        injection hstmt' with hstmt'
        subst hstmt'
        have hmlr : LocalReach uf stmts mtl set0 m :=
          hwslr m (List.mem_cons_self _ _)
        refine ih (fun x hx => ?_) (fun x hx => ?_) (fun x hx => ?_) hset
        · rcases Finset.mem_insert.mp hx with rfl | hx
          · exact hmlr
          · exact hvis x hx
        · rcases List.mem_append.mp hx with hx | hx
          · exact LocalReach.step hmlr hidx hstmt (List.mem_reverse.mp hx)
          · exact hwslr x (List.mem_cons_of_mem _ hx)
        · rcases Finset.mem_insert.mp hx with rfl | hx
          · exact ⟨m, d, hmlr, hidx, hstmt⟩
          · exact hinc x hx
      · next hne =>
        exact absurd hstmt (hne d)
    · next heq => rw [hidx] at heq; cases heq
  | case4 visited inc set m rest hws hmem i hidx hnone _ ih =>
    intro hvis hwslr hinc hset
    rw [include_loop, dif_neg hmem]
    split
    · next i' heq =>
      rw [hidx] at heq
      injection heq with heq
      subst heq
      split
      · next d' hstmt' => exact absurd hstmt' (fun h => hnone d' h)
      · next _ =>
        have hmlr : LocalReach uf stmts mtl set0 m :=
          hwslr m (List.mem_cons_self _ _)
        refine ih (fun x hx => ?_)
          (fun x hx => hwslr x (List.mem_cons_of_mem _ hx)) hinc hset
        rcases Finset.mem_insert.mp hx with rfl | hx
        · exact hmlr
        · exact hvis x hx
    · next heq => rw [hidx] at heq; cases heq
  | case5 visited inc set m rest hws hmem hidx _ ih =>
    intro hvis hwslr hinc hset
    rw [include_loop, dif_neg hmem]
    split
    · next i' heq => rw [hidx] at heq; cases heq
    · next heq =>
      have hmlr : LocalReach uf stmts mtl set0 m :=
        hwslr m (List.mem_cons_self _ _)
      refine ih (fun x hx => ?_)
        (fun x hx => hwslr x (List.mem_cons_of_mem _ hx)) hinc (fun x hx => ?_)
      · rcases Finset.mem_insert.mp hx with rfl | hx
        · exact hmlr
        · exact hvis x hx
      · rcases Finset.mem_insert.mp hx with rfl | hx
        · exact Or.inr ⟨m, hmlr, hidx, rfl⟩
        · exact hset x hx

theorem include_loop_complete (uf : SymbolBox) (stmts : List Statement)
    (mtl : List (Nat × Nat)) (U : Finset Nat)
    (hstmts : ∀ i d, stmts.get? i = some (.declStatement d) →
      ∀ r ∈ d.reads, r ∈ U) (set0 : Finset Nat) :
    ∀ (visited : Finset Nat) (ws : List Nat) (inc set : Finset Nat)
      (hws : ∀ m ∈ ws, m ∈ U),
      (∀ j d, stmts.get? j = some (.declStatement d) →
        uf.find_root d.mark ∈ set0 → d.mark ∈ visited ∨ d.mark ∈ ws) →
      (∀ m ∈ visited,
        (∀ i d, List.lookup m mtl = some i →
          stmts.get? i = some (.declStatement d) →
          i ∈ inc ∧ ∀ r ∈ d.reads, r ∈ visited ∨ r ∈ ws) ∧
        (List.lookup m mtl = none → uf.find_root m ∈ set)) →
      set0 ⊆ set →
      (∀ i, spec_inc uf stmts mtl set0 i →
        i ∈ (include_loop uf stmts mtl U hstmts visited ws inc set hws).1) ∧
      (∀ x, spec_set uf stmts mtl set0 x →
        x ∈ (include_loop uf stmts mtl U hstmts visited ws inc set hws).2) := by
  intro visited ws inc set hws
  induction visited, ws, inc, set, hws using include_loop.induct uf stmts mtl U hstmts with
  | case1 visited inc set hws _ =>
    intro hic hcl hs0
    rw [include_loop]
    have hvisited : ∀ m, LocalReach uf stmts mtl set0 m → m ∈ visited := by
      intro m hm
      induction hm with
      | init hget hroot =>
        rcases hic _ _ hget hroot with h | h
        · exact h
        · cases h
      | step _ hidx hget hr ihm =>
        rcases ((hcl _ ihm).1 _ _ hidx hget).2 _ hr with h | h
        · exact h
        · cases h
    constructor
    · rintro i ⟨m, d, hlr, hidx, hget⟩
      exact ((hcl m (hvisited m hlr)).1 i d hidx hget).1
    · rintro x (hx | ⟨m, hlr, hnone, rfl⟩)
      · exact hs0 hx
      · exact (hcl m (hvisited m hlr)).2 hnone
  | case2 visited inc set m rest hws hmem _ ih =>
    intro hic hcl hs0
    rw [include_loop, dif_pos hmem]
    refine ih (fun j d hget hroot => ?_) (fun m' hm' => ?_) hs0
    · rcases hic j d hget hroot with h | h
      · exact Or.inl h
      · rcases List.mem_cons.mp h with rfl | h
        · exact Or.inl hmem
        · exact Or.inr h
    · refine ⟨fun i d hidx hget => ?_, (hcl m' hm').2⟩
      obtain ⟨h1, h2⟩ := (hcl m' hm').1 i d hidx hget
      refine ⟨h1, fun r hr => ?_⟩
      rcases h2 r hr with h | h
      · exact Or.inl h
      · rcases List.mem_cons.mp h with rfl | h
        · exact Or.inl hmem
        · exact Or.inr h
  | case3 visited inc set m rest hws hmem i hidx d hstmt _ ih =>
    intro hic hcl hs0
    rw [include_loop, dif_neg hmem]
    split
    · next i' heq =>
      rw [hidx] at heq
      injection heq with heq
      subst heq
      split
      · next d' hstmt' =>
        rw [hstmt] at hstmt'
        injection hstmt' with hstmt'
        injection hstmt' with hstmt'
        subst hstmt'
        refine ih (fun j d0 hget hroot => ?_) (fun m' hm' => ?_) hs0
        · rcases hic j d0 hget hroot with h | h
          · exact Or.inl (Finset.mem_insert_of_mem h)
          · rcases List.mem_cons.mp h with heq | h
            · exact Or.inl (heq ▸ Finset.mem_insert_self _ _)
            · exact Or.inr (List.mem_append_right _ h)
        · rcases Finset.mem_insert.mp hm' with rfl | hm'
          · refine ⟨fun i0 d0 hidx0 hget0 => ?_, fun hnone => ?_⟩
            · rw [hidx] at hidx0
              injection hidx0 with hidx0
              subst hidx0
              rw [hstmt] at hget0
              injection hget0 with hget0
              injection hget0 with hget0
              subst hget0
              refine ⟨Finset.mem_insert_self _ _, fun r hr => ?_⟩
              exact Or.inr (List.mem_append_left _ (List.mem_reverse.mpr hr))
            · rw [hidx] at hnone; cases hnone
          · refine ⟨fun i0 d0 hidx0 hget0 => ?_, (hcl m' hm').2⟩
            obtain ⟨h1, h2⟩ := (hcl m' hm').1 i0 d0 hidx0 hget0
            refine ⟨Finset.mem_insert_of_mem h1, fun r hr => ?_⟩
            rcases h2 r hr with h | h
            · exact Or.inl (Finset.mem_insert_of_mem h)
            · rcases List.mem_cons.mp h with rfl | h
              · exact Or.inl (Finset.mem_insert_self _ _)
              · exact Or.inr (List.mem_append_right _ h)
      · next hne => exact absurd hstmt (hne d)
    · next heq => rw [hidx] at heq; cases heq
  | case4 visited inc set m rest hws hmem i hidx hnone _ ih =>
    intro hic hcl hs0
    rw [include_loop, dif_neg hmem]
    split
    · next i' heq =>
      rw [hidx] at heq
      injection heq with heq
      subst heq
      split
      · next d' hstmt' => exact absurd hstmt' (fun h => hnone d' h)
      · next _ =>
        refine ih (fun j d0 hget hroot => ?_) (fun m' hm' => ?_) hs0
        · rcases hic j d0 hget hroot with h | h
          · exact Or.inl (Finset.mem_insert_of_mem h)
          · rcases List.mem_cons.mp h with heq | h
            · exact Or.inl (heq ▸ Finset.mem_insert_self _ _)
            · exact Or.inr h
        · rcases Finset.mem_insert.mp hm' with rfl | hm'
          · refine ⟨fun i0 d0 hidx0 hget0 => ?_, fun hn => ?_⟩
            · rw [hidx] at hidx0
              injection hidx0 with hidx0
              subst hidx0
              exact absurd hget0 (fun h => hnone d0 h)
            · rw [hidx] at hn; cases hn
          · refine ⟨fun i0 d0 hidx0 hget0 => ?_, (hcl m' hm').2⟩
            obtain ⟨h1, h2⟩ := (hcl m' hm').1 i0 d0 hidx0 hget0
            refine ⟨h1, fun r hr => ?_⟩
            rcases h2 r hr with h | h
            · exact Or.inl (Finset.mem_insert_of_mem h)
            · rcases List.mem_cons.mp h with rfl | h
              · exact Or.inl (Finset.mem_insert_self _ _)
              · exact Or.inr h
    · next heq => rw [hidx] at heq; cases heq
  | case5 visited inc set m rest hws hmem hidx _ ih =>
    intro hic hcl hs0
    rw [include_loop, dif_neg hmem]
    split
    · next i' heq => rw [hidx] at heq; cases heq
    · next heq =>
      refine ih (fun j d0 hget hroot => ?_) (fun m' hm' => ?_)
        (fun x hx => Finset.mem_insert_of_mem (hs0 hx))
      · rcases hic j d0 hget hroot with h | h
        · exact Or.inl (Finset.mem_insert_of_mem h)
        · rcases List.mem_cons.mp h with heq2 | h
          · exact Or.inl (heq2 ▸ Finset.mem_insert_self _ _)
          · exact Or.inr h
      · rcases Finset.mem_insert.mp hm' with rfl | hm'
        · refine ⟨fun i0 d0 hidx0 _ => ?_, fun _ => Finset.mem_insert_self _ _⟩
          rw [hidx] at hidx0; cases hidx0
        · refine ⟨fun i0 d0 hidx0 hget0 => ?_,
            fun hn => Finset.mem_insert_of_mem ((hcl m' hm').2 hn)⟩
          obtain ⟨h1, h2⟩ := (hcl m' hm').1 i0 d0 hidx0 hget0
          refine ⟨h1, fun r hr => ?_⟩
          rcases h2 r hr with h | h
          · exact Or.inl (Finset.mem_insert_of_mem h)
          · rcases List.mem_cons.mp h with rfl | h
            · exact Or.inl (Finset.mem_insert_self _ _)
            · exact Or.inr h

theorem apply_included_get (stmts : List Statement) (inc : Finset Nat)
    (j : Nat) :
    (apply_included stmts inc).get? j = (stmts.get? j).map (fun s =>
      match s with
      | .declStatement d =>
        if j ∈ inc then .declStatement { d with included := true } else s
      | s => s) := by
  simp only [apply_included, List.get?_map, List.get?_enum, Option.map_map]
  cases stmts.get? j with
  | none => rfl
  | some s => cases s <;> rfl

theorem include_statement_with_mark_set_eq (uf : SymbolBox) (m : Module)
    (S : Finset Nat) :
    include_statement_with_mark_set uf m S =
      ({ m with statements := apply_included m.statements
                  (include_loop uf m.statements
                    (mark_to_local_statement m.statements)
                    (all_marks m.statements)
                    (fun i d h => (all_marks_get h).2) ∅
                    (initial_candidates uf m.statements S).reverse ∅ S
                    (fun x hx => initial_candidates_subset uf m.statements S x
                      (List.mem_reverse.mp hx))).1 },
       (include_loop uf m.statements (mark_to_local_statement m.statements)
          (all_marks m.statements) (fun i d h => (all_marks_get h).2) ∅
          (initial_candidates uf m.statements S).reverse ∅ S
          (fun x hx => initial_candidates_subset uf m.statements S x
            (List.mem_reverse.mp hx))).2) := by
  rw [include_statement_with_mark_set]

theorem apply_included_get_decl (stmts : List Statement) (inc : Finset Nat)
    (j : Nat) (d : DeclStatement)
    (h : stmts.get? j = some (.declStatement d)) :
    (apply_included stmts inc).get? j =
      some (if j ∈ inc then .declStatement { d with included := true }
            else .declStatement d) := by
  rw [apply_included_get, h]
  rfl

/-- The included-index set computed for seed `S1` is contained in the one for
any larger seed `S2`, and likewise for the outgoing mark sets. -/
theorem include_loop_result_mono (uf : SymbolBox) (m : Module)
    {S1 S2 : Finset Nat} (hS : S1 ⊆ S2) :
    (∀ j, j ∈ (include_loop uf m.statements
        (mark_to_local_statement m.statements) (all_marks m.statements)
        (fun i d h => (all_marks_get h).2) ∅
        (initial_candidates uf m.statements S1).reverse ∅ S1
        (fun x hx => initial_candidates_subset uf m.statements S1 x
          (List.mem_reverse.mp hx))).1 →
      j ∈ (include_loop uf m.statements
        (mark_to_local_statement m.statements) (all_marks m.statements)
        (fun i d h => (all_marks_get h).2) ∅
        (initial_candidates uf m.statements S2).reverse ∅ S2
        (fun x hx => initial_candidates_subset uf m.statements S2 x
          (List.mem_reverse.mp hx))).1) ∧
    (∀ x, x ∈ (include_loop uf m.statements
        (mark_to_local_statement m.statements) (all_marks m.statements)
        (fun i d h => (all_marks_get h).2) ∅
        (initial_candidates uf m.statements S1).reverse ∅ S1
        (fun x hx => initial_candidates_subset uf m.statements S1 x
          (List.mem_reverse.mp hx))).2 →
      x ∈ (include_loop uf m.statements
        (mark_to_local_statement m.statements) (all_marks m.statements)
        (fun i d h => (all_marks_get h).2) ∅
        (initial_candidates uf m.statements S2).reverse ∅ S2
        (fun x hx => initial_candidates_subset uf m.statements S2 x
          (List.mem_reverse.mp hx))).2) := by
  have hsound := include_loop_sound uf m.statements
    (mark_to_local_statement m.statements) (all_marks m.statements)
    (fun i d h => (all_marks_get h).2) S1 ∅
    (initial_candidates uf m.statements S1).reverse ∅ S1
    (fun x hx => initial_candidates_subset uf m.statements S1 x
      (List.mem_reverse.mp hx))
    (fun x hx => absurd hx (Finset.not_mem_empty x))
    (fun x hx => by
      obtain ⟨d, hd, hroot, rfl⟩ := (mem_initial_candidates_iff uf
        m.statements S1 x).mp (List.mem_reverse.mp hx)
      obtain ⟨j, hj⟩ := List.mem_iff_get?.mp hd
      exact LocalReach.init hj hroot)
    (fun x hx => absurd hx (Finset.not_mem_empty x))
    (fun x hx => Or.inl hx)
  have hcomplete := include_loop_complete uf m.statements
    (mark_to_local_statement m.statements) (all_marks m.statements)
    (fun i d h => (all_marks_get h).2) S2 ∅
    (initial_candidates uf m.statements S2).reverse ∅ S2
    (fun x hx => initial_candidates_subset uf m.statements S2 x
      (List.mem_reverse.mp hx))
    (fun j d hget hroot => Or.inr (List.mem_reverse.mpr
      ((mem_initial_candidates_iff uf m.statements S2 d.mark).mpr
        ⟨d, List.get?_mem hget, hroot, rfl⟩)))
    (fun x hx => absurd hx (Finset.not_mem_empty x))
    (fun x hx => hx)
  constructor
  · intro j hj
    exact hcomplete.1 j (spec_inc_mono hS (hsound.1 j hj))
  · intro x hx
    exact hcomplete.2 x (spec_set_mono hS (hsound.2 x hx))

/-- Per-module monotonicity of `include_statement_with_mark_set` in the seed
mark set: included statements stay included, and the outgoing mark set grows. -/
theorem include_statement_with_mark_set_mono (uf : SymbolBox) (m : Module)
    {S1 S2 : Finset Nat} (hS : S1 ⊆ S2) :
    (∀ j s1, (include_statement_with_mark_set uf m S1).1.statements.get? j
        = some (.declStatement s1) → s1.included = true →
      ∃ s2, (include_statement_with_mark_set uf m S2).1.statements.get? j
        = some (.declStatement s2) ∧ s2.included = true) ∧
    ∀ x, x ∈ (include_statement_with_mark_set uf m S1).2 →
      x ∈ (include_statement_with_mark_set uf m S2).2 := by
  obtain ⟨hinc, hset⟩ := include_loop_result_mono uf m hS
  rw [include_statement_with_mark_set_eq uf m S1,
    include_statement_with_mark_set_eq uf m S2]
  refine ⟨fun j s1 hget hincl => ?_, hset⟩
  cases hbase : m.statements.get? j with
  | none => rw [apply_included_get, hbase] at hget; cases hget
  | some s0 =>
    cases s0 with
    | declStatement d =>
      rw [apply_included_get_decl _ _ _ _ hbase] at hget
      rw [apply_included_get_decl _ _ _ _ hbase]
      by_cases h1 : j ∈ (include_loop uf m.statements
          (mark_to_local_statement m.statements) (all_marks m.statements)
          (fun i d h => (all_marks_get h).2) ∅
          (initial_candidates uf m.statements S1).reverse ∅ S1
          (fun x hx => initial_candidates_subset uf m.statements S1 x
            (List.mem_reverse.mp hx))).1
      · rw [if_pos (hinc j h1)]
        exact ⟨{ d with included := true }, rfl, rfl⟩
      · rw [if_neg h1] at hget
        injection hget with hget
        injection hget with hget
        subst hget
        by_cases h2 : j ∈ (include_loop uf m.statements
            (mark_to_local_statement m.statements) (all_marks m.statements)
            (fun i d h => (all_marks_get h).2) ∅
            (initial_candidates uf m.statements S2).reverse ∅ S2
            (fun x hx => initial_candidates_subset uf m.statements S2 x
              (List.mem_reverse.mp hx))).1
        · rw [if_pos h2]
          exact ⟨{ d with included := true }, rfl, rfl⟩
        · rw [if_neg h2]
          exact ⟨d, rfl, hincl⟩
    | importStatement =>
      rw [apply_included_get, hbase] at hget
      simp only [Option.map_some'] at hget
      cases hget
    | exportStatementNonDecl =>
      rw [apply_included_get, hbase] at hget
      simp only [Option.map_some'] at hget
      cases hget

theorem include_sweep_modules_cons (uf : SymbolBox) (m : Module)
    (rest : List Module) (S : Finset Nat) :
    include_sweep_modules uf (m :: rest) S =
      ((include_statement_with_mark_set uf m S).1 ::
        (include_sweep_modules uf rest
          (include_statement_with_mark_set uf m S).2).1,
       (include_sweep_modules uf rest
          (include_statement_with_mark_set uf m S).2).2) := rfl

/-- C8: the inclusion sweep is monotone in the seed mark set.  Running the
per-module inclusion pass over the modules (in node-index order, threading the
shared mark set) with a seed `S2 ⊇ S1` includes every statement the `S1` run
includes, and ends with a larger mark set. -/
theorem include_sweep_modules_monotone (uf : SymbolBox) (mods : List Module)
    {S1 S2 : Finset Nat} (hS : S1 ⊆ S2) :
    (∀ x, x ∈ (include_sweep_modules uf mods S1).2 →
      x ∈ (include_sweep_modules uf mods S2).2) ∧
    (∀ k m1 m2, (include_sweep_modules uf mods S1).1.get? k = some m1 →
      (include_sweep_modules uf mods S2).1.get? k = some m2 →
      ∀ j s1, m1.statements.get? j = some (.declStatement s1) →
        s1.included = true →
        ∃ s2, m2.statements.get? j = some (.declStatement s2) ∧
          s2.included = true) := by
  induction mods generalizing S1 S2 with
  | nil =>
    refine ⟨fun x hx => hS hx, fun k m1 m2 h1 h2 => ?_⟩
    simp [include_sweep_modules] at h1
  | cons m rest ih =>
    have hmono := include_statement_with_mark_set_mono uf m hS
    have hsub : (include_statement_with_mark_set uf m S1).2 ⊆
        (include_statement_with_mark_set uf m S2).2 := fun x hx => hmono.2 x hx
    obtain ⟨ihset, ihstmt⟩ := ih hsub
    constructor
    · intro x hx
      rw [include_sweep_modules_cons] at hx ⊢
      exact ihset x hx
    · intro k m1 m2 h1 h2
      rw [include_sweep_modules_cons] at h1 h2
      cases k with
      | zero =>
        simp only [List.get?] at h1 h2
        injection h1 with h1
        injection h2 with h2
        subst h1; subst h2
        exact fun j s1 hget hincl => hmono.1 j s1 hget hincl
      | succ k =>
        simp only [List.get?] at h1 h2
        exact fun j s1 hget hincl => ihstmt k m1 m2 h1 h2 j s1 hget hincl

/-- Witness for `include_sweep_modules_monotone`: on module `b.d.ts` of the
linked three-module program, the seed `{2}` is contained in `{2, 9}`, the
root `2` lies in the sweep's output mark set for the small seed, and
monotonicity transports it to the larger seed's output set. -/
theorem include_sweep_modules_monotone_witness :
    ({2} : Finset Nat) ⊆ {2, 9} ∧
    (2 : Nat) ∈
      (include_sweep_modules c2Box [c2BModule] ({2, 9} : Finset Nat)).2 := by
  have h2 : (2 : Nat) ∈
      (include_sweep_modules c2Box [c2BModule] ({2} : Finset Nat)).2 := by
    simp [include_sweep_modules, include_statement_with_mark_set, c2Box,
      c2BModule, include_loop, initial_candidates, mark_to_local_statement,
      all_marks, apply_included, link_modules, link_modules_aux,
      link_one_module, link_module_imports, link_module_exports,
      link_import_step, link_export_step, SymbolBox.union, SymbolBox.find_root,
      SymbolBox.init, List.lookup, c2Graph, c2EntryModule, c2AModule,
      c2ExportCEntry, c2ExportX, c2ExportY, c2ExportCB, List.filter,
      List.enum, List.enumFrom, ExportOriginalIdent.lookupName, Exports.mark]
  exact ⟨by decide, (include_sweep_modules_monotone c2Box [c2BModule]
    (by decide)).1 2 h2⟩

end DtsUp
